import Mathlib

/-!
Verification of the go-uncalled analyzer core (`pkg/uncalled`): the rule
model and validation (`config.go`), the signature matcher, the statement
suffix locator (`helpers.go`), the alias / call-flow tracker
(`visitor.go`) and the diagnostic reporting loop (`analyzer.go`,
current revision: the second `package uncalled` unit in that file, the one
consistent with the `Config` type of `config.go`).

Go AST nodes are embedded as a small inductive syntax; identifier object
identity (`ast.Ident.Obj`) is a numeric id; the `go/types` oracle
(`pass.TypesInfo`) is a function from object ids to the canonical string
form of the resolved type (`types.Type.String()`), `none` standing for a
missing entry.

The visitor's mutually recursive tree walk is defined with an explicit
fuel parameter (a bound on the recursion depth) to keep every definition
structurally recursive and executable by kernel reduction; the recursion
measure strictly decreases at every call, so any fuel strictly above the
`sizeOf` of the walked syntax gives the exact behaviour of the Go code
(`walk_fuel_irrel` below makes this precise).

String helpers are written against `String.data` (the underlying character
list), with the same semantics as the `strings` package functions the
source uses.
-/

set_option maxHeartbeats 1000000

namespace Uncalled

/-! ## String helpers (`strings` package operations used by the source) -/

/-- `strings.Join(elems, sep)`. -/
def joinWith (sep : String) : List String → String
  | [] => ""
  | [s] => s
  | s :: rest => s ++ sep ++ joinWith sep rest

/-- `strings.HasPrefix(s, pre)`. -/
def strHasPrefix (s pre : String) : Bool :=
  pre.data.isPrefixOf s.data

/-- `s[1:]` on a string known to start with a one-byte prefix. -/
def strDrop1 (s : String) : String :=
  ⟨s.data.drop 1⟩

/-- `strings.TrimLeft(s, ".")`: remove every leading dot. -/
def trimLeftDots (s : String) : String :=
  ⟨s.data.dropWhile (fun c => c == '.')⟩

/-- `strings.Split(s, sep)` for a one-character separator. -/
def splitChar (c : Char) : List Char → List (List Char)
  | [] => [[]]
  | x :: xs =>
    let r := splitChar c xs
    if x == c then [] :: r
    else
      match r with
      | h :: t => (x :: h) :: t
      | [] => [[x]]

/-- `strings.Join(strings.Split(s, ".")[:k-1], ".")` as used by
`Result.build` to derive the owner type of an expected call: drop the
final dot-separated component. -/
def dropLastComponent (s : String) : String :=
  joinWith "." (((splitChar '.' s.data).dropLast).map (fun cs => (⟨cs⟩ : String)))

/-! ## The embedded syntax -/

/-- Identifier object identity: stands for an `*ast.Object` pointer. -/
abbrev ObjId := Nat

/-- One parameter field of a function literal (`*ast.Field`): its names with
their object ids, and the canonical string of the resolved semantic type of
the field's type expression (`pass.TypesInfo.Types[f.Type].Type.String()`),
`none` when the type is unknown. -/
structure Field where
  names : List (String × ObjId)
  typeName : Option String

mutual
/-- Go expressions, restricted to the shapes the visitor distinguishes:
identifiers, selector chains, calls, function literals; `binop`/`unop`
stand for composite expressions that are traversed transparently and
`basic` for leaves without children (literals). -/
inductive Expr where
  | ident (name : String) (obj : ObjId)
  | selector (x : Expr) (sel : String)
  | call (fn : Expr) (args : List Expr)
  | funcLit (params : List Field) (body : List Stmt)
  | binop (x y : Expr)
  | unop (x : Expr)
  | basic

/-- Go statements as traversed by `ast.Walk`: child order of each
constructor follows `ast.Walk` (for `ifStmt`: Init, Cond, Body, Else; for
`forStmt`: Init, Cond, Post, Body; for `rangeStmt`: Key, Value, X, Body). -/
inductive Stmt where
  | assign (lhs rhs : List Expr)
  | exprStmt (x : Expr)
  | deferStmt (x : Expr)
  | block (stmts : List Stmt)
  | ifStmt (ini : Option Stmt) (cond : Expr) (body : List Stmt) (els : Option Stmt)
  | forStmt (ini : Option Stmt) (cond : Option Expr) (post : Option Stmt) (body : List Stmt)
  | rangeStmt (key value : Option Expr) (x : Expr) (body : List Stmt)
  | returnStmt (results : List Expr)
  | other
end

mutual
/-- Size of an expression; the walker's recursion measure. -/
def sizeE : Expr → Nat
  | .ident _ _ => 1
  | .selector x _ => 1 + sizeE x
  | .call fn args => 1 + sizeE fn + sizeEs args
  | .funcLit params body => 1 + sizeFs params + sizeSs body
  | .binop x y => 1 + sizeE x + sizeE y
  | .unop x => 1 + sizeE x
  | .basic => 1

/-- Size of an expression list. -/
def sizeEs : List Expr → Nat
  | [] => 1
  | e :: rest => 1 + sizeE e + sizeEs rest

/-- Size of an optional expression. -/
def sizeOptE : Option Expr → Nat
  | none => 1
  | some e => 1 + sizeE e

/-- Size of a statement. -/
def sizeS : Stmt → Nat
  | .assign lhs rhs => 1 + sizeEs lhs + sizeEs rhs
  | .exprStmt x => 1 + sizeE x
  | .deferStmt x => 1 + sizeE x
  | .block ss => 1 + sizeSs ss
  | .ifStmt ini cond body els => 1 + sizeOptS ini + sizeE cond + sizeSs body + sizeOptS els
  | .forStmt ini cond post body => 1 + sizeOptS ini + sizeOptE cond + sizeOptS post + sizeSs body
  | .rangeStmt key value x body => 1 + sizeOptE key + sizeOptE value + sizeE x + sizeSs body
  | .returnStmt results => 1 + sizeEs results
  | .other => 1

/-- Size of a statement list. -/
def sizeSs : List Stmt → Nat
  | [] => 1
  | s :: rest => 1 + sizeS s + sizeSs rest

/-- Size of an optional statement. -/
def sizeOptS : Option Stmt → Nat
  | none => 1
  | some s => 1 + sizeS s

/-- Size of a parameter field list. -/
def sizeFs : List Field → Nat
  | [] => 1
  | f :: rest => 1 + f.names.length + sizeFs rest
end

/-- The type-resolution oracle: `pass.TypesInfo.Types[ident].Type.String()`
keyed on the identifier's object id. -/
structure TypeOracle where
  typeOfObj : ObjId → Option String

/-- `helpers.go names`: all names in a chain of selections `x.y.z`, or
`none` if the chain is not rooted in an identifier. -/
def names : Expr → Option (List String)
  | .ident n _ => some [n]
  | .selector x s =>
    match names x with
    | some parts => some (parts ++ [s])
    | none => none
  | _ => none

/-- `helpers.go rootIdent`: the root identifier `x` (name and object id) in
a chain of selections `x.y.z`, or `none` if not found. -/
def rootIdent : Expr → Option (String × ObjId)
  | .ident n o => some (n, o)
  | .selector x _ => rootIdent x
  | _ => none

/-! ## The rule model (`config.go`) -/

/-- `config.go anyType`: the wildcard type name. -/
def anyType : String := "_"

/-- `config.go Expect`: a result call expectation (`Call`, `Args`). -/
structure Expect where
  call : String
  args : List String

/-- `config.go Result`: one positional result of a watched call. -/
structure Result where
  type : String
  pointer : Bool
  expect : Option Expect

/-- `config.go Result.name`: the fully qualified type name for a given
package: empty for the wildcard; `pointer-marker ++ pkg ++ type` for a
dotted-relative type; `pointer-marker ++ type` for an absolute type. -/
def Result.fqName (r : Result) (pkg : String) : String :=
  if r.type == anyType then ""
  else
    let ptr := if r.pointer then "*" else ""
    if strHasPrefix r.type "." then ptr ++ pkg ++ r.type else ptr ++ r.type

/-- The `resultTypes` set built in `config.go Result.build`: the fully
qualified name of the result for every configured package. -/
def Result.resultTypes (r : Result) (packages : List String) : List String :=
  packages.map r.fqName

/-- The matcher closure built in `config.go Result.build`: `nil` types never
match, the wildcard matches any non-nil type, otherwise membership of the
type's canonical string in `resultTypes`. (Source method name: `match`,
which is a Lean keyword.) -/
def Result.rmatch (r : Result) (packages : List String) (t : Option String) : Bool :=
  match t with
  | none => false
  | some s => if r.type == anyType then true else (r.resultTypes packages).contains s

/-- `config.go reName` (`^[a-z0-9-]+$`): nonempty and every character a
lowercase letter, digit or hyphen. -/
def nameOk (s : String) : Bool :=
  !s.data.isEmpty && s.data.all (fun c => ('a' ≤ c && c ≤ 'z') || ('0' ≤ c && c ≤ '9') || c == '-')

/-- `config.go Rule` as authored (compiled state lives in `CRule`). -/
structure Rule where
  name : String
  category : String
  packages : List String
  results : List Result

/-- A validated rule together with the compiled state `Rule.validate`
attaches to it in place: the index and fields of the single
`Expect`-bearing result (`expects`), and the `expectedCalls` /
`expectedTypes` sets. -/
structure CRule where
  name : String
  category : String
  packages : List String
  results : List Result
  expectsIdx : Nat
  expectsType : String
  expectsCall : String
  expectsArgs : List String
  expectedCalls : List String
  expectedTypes : List String

/-- The first loop of `config.go Rule.validate`: locate the single
`Expect`-bearing result and its index; a second one is an error. -/
def findExpects : List Result → Nat → Option (Nat × Result) →
    Except String (Option (Nat × Result))
  | [], _, acc => .ok acc
  | res :: rest, i, acc =>
    match res.expect with
    | some _ =>
      match acc with
      | some _ => .error "multiple results expecting a method"
      | none => findExpects rest (i + 1) (some (i, res))
    | none => findExpects rest (i + 1) acc

/-- The per-package loop of `config.go Result.build` restricted to its
contributions to `rule.expectedCalls` and `rule.expectedTypes`: a result
without an `Expect` contributes nothing; an `Expect`-bearing wildcard
result is an error (raised on the first package); otherwise each package
contributes `fqName ++ call` and its owner type. -/
def Result.build (res : Result) : List String → Except String (List String × List String)
  | [] => .ok ([], [])
  | p :: ps =>
    match res.expect with
    | none => res.build ps
    | some e =>
      if res.type == anyType then .error "result is expected and wildcard"
      else
        match res.build ps with
        | .error m => .error m
        | .ok (cs, ts) =>
          let nm := res.fqName p ++ e.call
          .ok (nm :: cs, dropLastComponent nm :: ts)

/-- The second loop of `config.go Rule.validate`: `build` every result in
order, accumulating `expectedCalls` and `expectedTypes`. -/
def buildAll : List Result → List String → Except String (List String × List String)
  | [], _ => .ok ([], [])
  | res :: rest, pkgs =>
    match res.build pkgs with
    | .error m => .error m
    | .ok (cs, ts) =>
      match buildAll rest pkgs with
      | .error m => .error m
      | .ok (cs2, ts2) => .ok (cs ++ cs2, ts ++ ts2)

/-- `config.go Rule.validate`: name pattern, non-empty packages and
results, exactly one `Expect`-bearing result, and matcher compilation. -/
def Rule.validate (r : Rule) : Except String CRule :=
  if !nameOk r.name then .error "contains non alpha numberic or uppercase charaters"
  else if r.packages.isEmpty then .error "no packages"
  else if r.results.isEmpty then .error "no call results"
  else
    match findExpects r.results 0 none with
    | .error m => .error m
    | .ok none => .error "no result expecting a method"
    | .ok (some (idx, res)) =>
      match buildAll r.results r.packages with
      | .error m => .error m
      | .ok (cs, ts) =>
        .ok { name := r.name, category := r.category, packages := r.packages,
              results := r.results, expectsIdx := idx,
              expectsType := res.type,
              expectsCall := (match res.expect with | some e => e.call | none => ""),
              expectsArgs := (match res.expect with | some e => e.args | none => []),
              expectedCalls := cs, expectedTypes := ts }

/-- The positional loop of `config.go Rule.matchesResults` (run after the
length check). -/
def matchResultsList (pkgs : List String) : List Result → List (Option String) → Bool
  | [], _ => true
  | _ :: _, [] => true
  | res :: rs, t :: ts => res.rmatch pkgs t && matchResultsList pkgs rs ts

/-- `config.go Rule.matchesResults`: the observed result tuple matches when
the lengths agree and every position matches. -/
def CRule.matchesResults (r : CRule) (ts : List (Option String)) : Bool :=
  if ts.length != r.results.length then false
  else matchResultsList r.packages r.results ts

/-- `config.go Rule.matchesCall`: argument count must equal the expected
argument count, and the joined selector name must equal the expected call
(stripped of a leading dot when present). -/
def CRule.matchesCall (r : CRule) (argCount : Nat) (nm : String) : Bool :=
  if argCount != r.expectsArgs.length then false
  else if strHasPrefix r.expectsCall "." then strDrop1 r.expectsCall == nm
  else r.expectsCall == nm

/-- `config.go Rule.name` (the formatting method; renamed as `name` is the
record field): `ident ++ expects.Expect.Call ++ "(" ++ args ++ ")"`, the
identifier defaulting to the expected result's type name with leading dots
trimmed. -/
def CRule.fmtName (r : CRule) (ident : String) : String :=
  let id := if ident == "" then trimLeftDots r.expectsType else ident
  id ++ r.expectsCall ++ "(" ++ joinWith "," r.expectsArgs ++ ")"

/-- `helpers.go containsType`: `none` (unknown) never matches, otherwise
membership of the canonical type string. -/
def containsType (typ : Option String) (rowTypes : List String) : Bool :=
  match typ with
  | some t => rowTypes.contains t
  | none => false

/-! ## The visitor (`visitor.go`) -/

/-- The mutable state of `visitor.go visitor`: the alias set `identObjs`,
the deferred-call table `calledArgs` (literal object id to satisfying
argument positions) and the `found` flag. -/
structure VState where
  identObjs : List ObjId
  calledArgs : List (ObjId × List Nat)
  found : Bool

/-- The state `visit` starts from: the alias set seeded with the tracked
identifier's object, an empty deferred-call table, not yet found. -/
def initState (obj : ObjId) : VState :=
  { identObjs := [obj], calledArgs := [], found := false }

/-- Map insertion into the alias set (`ec.identObjs[obj] = struct{}{}`). -/
def addObj (o : ObjId) (l : List ObjId) : List ObjId :=
  if o ∈ l then l else o :: l

/-- `visitor.go assignStmtMatches`: for each right-hand side that is an
identifier already in the alias set, add the corresponding left-hand side
identifier's object; positions are processed left to right against the
updated set. -/
def assignMatches : List Expr → List Expr → List ObjId → List ObjId
  | lh :: ls, rh :: rs, objs =>
    let objs1 :=
      match rh with
      | .ident _ ro =>
        if ro ∈ objs then
          match lh with
          | .ident _ lo => addObj lo objs
          | _ => objs
        else objs
      | _ => objs
    assignMatches ls rs objs1
  | _, _, objs => objs

/-- Lookup in the deferred-call table (`ec.calledArgs[obj]`, empty when the
key is absent). -/
def lookupArgs (ca : List (ObjId × List Nat)) (o : ObjId) : List Nat :=
  match ca.find? (fun p => p.1 == o) with
  | some p => p.2
  | none => []

/-- Record an argument position in the deferred-call table
(`ec.calledArgs[ident.Obj][j] = struct{}{}`). -/
def addCalledArg (o : ObjId) (j : Nat) : List (ObjId × List Nat) → List (ObjId × List Nat)
  | [] => [(o, [j])]
  | (o2, js) :: rest =>
    if o2 == o then (o2, if j ∈ js then js else j :: js) :: rest
    else (o2, js) :: addCalledArg o j rest

/-- The state-independent prefix of `visitor.go visitCallNode`: the callee
node's joined selector name must satisfy `matchesCall`, the root identifier
must have a known type, and `type ++ "." ++ name` must be one of the rule's
`expectedCalls`; on success the root identifier's object id is returned.
(The remaining check of `visitCallNode` is membership of that object in the
alias set, done in `visitCallNode` below.) -/
def callHit (r : CRule) (tr : TypeOracle) (argCount : Nat) (fn : Expr) : Option ObjId :=
  match names fn with
  | none => none
  | some parts =>
    let nm := joinWith "." (parts.drop 1)
    if !r.matchesCall argCount nm then none
    else
      match rootIdent fn with
      | none => none
      | some (_, obj) =>
        match tr.typeOfObj obj with
        | none => none
        | some typ =>
          let full := if nm == "" then typ else typ ++ "." ++ nm
          if r.expectedCalls.contains full then some obj else none

/-- `visitor.go visitCallNode`: the name / argument / type checks of
`callHit` followed by membership of the receiver's object in the alias set;
the boolean is true exactly when the expected call was found (the Go method
returns `nil`). -/
def visitCallNode (r : CRule) (tr : TypeOracle) (argCount : Nat) (fn : Expr) (st : VState) :
    VState × Bool :=
  match callHit r tr argCount fn with
  | some obj => if obj ∈ st.identObjs then ({ st with found := true }, true) else (st, false)
  | none => (st, false)

/-- The argument loop of `visitor.go visitCallIdent`: an identifier
argument whose object is in the alias set, at a position recorded in the
deferred-call table for this callee, satisfies the rule. -/
def argsHit (st : VState) (calleeObj : ObjId) : List Expr → Nat → Bool
  | [], _ => false
  | a :: rest, i =>
    (match a with
     | .ident _ ao =>
       decide (ao ∈ st.identObjs) && decide (i ∈ lookupArgs st.calledArgs calleeObj)
     | _ => false)
    || argsHit st calleeObj rest (i + 1)

mutual
/-- One `ast.Walk` step over a statement with the visitor of `visitor.go`:
`Visit` returns `nil` at once when `found` is set; assignment statements
run `assignStmtMatches` and `assignStmtFuncLit` before their children;
every other statement is traversed transparently in `ast.Walk` child
order. The fuel bounds the recursion depth and is not part of the Go
code; the walk never exhausts it when it exceeds the syntax's size. -/
def walkStmt (r : CRule) (tr : TypeOracle) : Nat → Stmt → VState → VState
  | 0, _, st => st
  | fuel + 1, s, st =>
    if st.found then st else
    match s with
    | .assign lhs rhs =>
      let st1 := { st with identObjs := assignMatches lhs rhs st.identObjs }
      let st2 := assignFuncLits r tr fuel lhs rhs st1
      walkExprs r tr fuel rhs (walkExprs r tr fuel lhs st2)
    | .exprStmt x => walkExpr r tr fuel x st
    | .deferStmt x => walkExpr r tr fuel x st
    | .block ss => walkStmts r tr fuel ss st
    | .ifStmt ini cond body els =>
      walkOptStmt r tr fuel els
        (walkStmts r tr fuel body (walkExpr r tr fuel cond (walkOptStmt r tr fuel ini st)))
    | .forStmt ini cond post body =>
      walkStmts r tr fuel body
        (walkOptStmt r tr fuel post (walkOptExpr r tr fuel cond (walkOptStmt r tr fuel ini st)))
    | .rangeStmt key value x body =>
      walkStmts r tr fuel body
        (walkExpr r tr fuel x (walkOptExpr r tr fuel value (walkOptExpr r tr fuel key st)))
    | .returnStmt results => walkExprs r tr fuel results st
    | .other => st

/-- Walk an optional child statement (absent children are skipped by
`ast.Walk`). -/
def walkOptStmt (r : CRule) (tr : TypeOracle) : Nat → Option Stmt → VState → VState
  | 0, _, st => st
  | fuel + 1, o, st =>
    match o with
    | none => st
    | some s => walkStmt r tr fuel s st

/-- Walk an optional child expression. -/
def walkOptExpr (r : CRule) (tr : TypeOracle) : Nat → Option Expr → VState → VState
  | 0, _, st => st
  | fuel + 1, o, st =>
    match o with
    | none => st
    | some e => walkExpr r tr fuel e st

/-- Walk a statement list in order, threading the visitor state. -/
def walkStmts (r : CRule) (tr : TypeOracle) : Nat → List Stmt → VState → VState
  | 0, _, st => st
  | fuel + 1, ss, st =>
    match ss with
    | [] => st
    | s :: rest => walkStmts r tr fuel rest (walkStmt r tr fuel s st)

/-- Walk an expression list in order, threading the visitor state. -/
def walkExprs (r : CRule) (tr : TypeOracle) : Nat → List Expr → VState → VState
  | 0, _, st => st
  | fuel + 1, es, st =>
    match es with
    | [] => st
    | e :: rest => walkExprs r tr fuel rest (walkExpr r tr fuel e st)

/-- One `ast.Walk` step over an expression: call expressions dispatch to
`visitCallExpr` (selector callees run `visitCallNode`; identifier callees
run `visitCallNode` then the deferred-call argument check; a satisfied
check stops the walk, otherwise children are visited); all other
expressions are traversed transparently. -/
def walkExpr (r : CRule) (tr : TypeOracle) : Nat → Expr → VState → VState
  | 0, _, st => st
  | fuel + 1, e, st =>
    if st.found then st else
    match e with
    | .call (.selector sx ssel) args =>
      let p := visitCallNode r tr args.length (.selector sx ssel) st
      if p.2 then p.1
      else walkExprs r tr fuel args (walkExpr r tr fuel (.selector sx ssel) p.1)
    | .call (.ident fname fo) args =>
      let p := visitCallNode r tr args.length (.ident fname fo) st
      if p.2 then p.1
      else if argsHit p.1 fo args 0 then { p.1 with found := true }
      else walkExprs r tr fuel args (walkExpr r tr fuel (.ident fname fo) p.1)
    | .call fn args => walkExprs r tr fuel args (walkExpr r tr fuel fn st)
    | .selector x _ => walkExpr r tr fuel x st
    | .funcLit _ body => walkStmts r tr fuel body st
    | .binop x y => walkExpr r tr fuel y (walkExpr r tr fuel x st)
    | .unop x => walkExpr r tr fuel x st
    | .ident _ _ => st
    | .basic => st

/-- `visitor.go assignStmtFuncLit`: for each position whose right-hand side
is a function literal with a non-empty body assigned to an identifier,
process the literal's parameter fields. -/
def assignFuncLits (r : CRule) (tr : TypeOracle) : Nat → List Expr → List Expr → VState → VState
  | 0, _, _, st => st
  | fuel + 1, lhs, rhs, st =>
    match lhs, rhs with
    | lh :: ls, rh :: rs =>
      let st1 :=
        match rh with
        | .funcLit params body =>
          if body.isEmpty then st
          else
            match lh with
            | .ident _ lo => procParams r tr fuel lo params body st
            | _ => st
        | _ => st
      assignFuncLits r tr fuel ls rs st1
    | _, _ => st

/-- The parameter-field loop of `assignStmtFuncLit`: fields whose declared
type is not one of the rule's `expectedTypes` are skipped. -/
def procParams (r : CRule) (tr : TypeOracle) : Nat → ObjId → List Field → List Stmt →
    VState → VState
  | 0, _, _, _, st => st
  | fuel + 1, hObj, fields, body, st =>
    match fields with
    | [] => st
    | ⟨fnames, ftype⟩ :: fs =>
      let st1 :=
        if containsType ftype r.expectedTypes then procNames r tr fuel hObj fnames 0 body st
        else st
      procParams r tr fuel hObj fs body st1

/-- The per-name loop of `assignStmtFuncLit`: run a fresh recursive visit
of the literal body tracking each parameter; indices of parameters for
which it succeeds are recorded in the deferred-call table under the
literal's bound identifier. -/
def procNames (r : CRule) (tr : TypeOracle) : Nat → ObjId → List (String × ObjId) → Nat →
    List Stmt → VState → VState
  | 0, _, _, _, _, st => st
  | fuel + 1, hObj, ns, j, body, st =>
    match ns with
    | [] => st
    | (_, pObj) :: rest =>
      let st1 :=
        if (walkStmts r tr fuel body (initState pObj)).found then
          { st with calledArgs := addCalledArg hObj j st.calledArgs }
        else st
      procNames r tr fuel hObj rest (j + 1) body st1
end

/-- `visitor.go visit`: walk the statement suffix with a fresh visitor
seeded with the tracked identifier's object, returning whether the rule's
expected call was found. The fuel `sizeSs stmts` strictly dominates
the walk's recursion measure, so it is never exhausted. -/
def visit (r : CRule) (tr : TypeOracle) (obj : ObjId) (stmts : List Stmt) : Bool :=
  (walkStmts r tr (sizeSs stmts) stmts (initState obj)).found

/-! ## Statement-suffix locator (`helpers.go restOfBlock`) and the
reporting loop (`analyzer.go checkRule` / `report`) -/

/-- One element of the traversal stack handed to `checkRule` by
`inspector.WithStack`. The Go code identifies the statement following the
innermost `*ast.BlockStmt` on the stack by scanning the block's statement
list for the node that is (pointer-)identical to the next stack entry; the
`block` constructor records that position directly as a zipper
(`before ++ cur :: after`), `cur` being the block statement the rest of
the stack hangs below. -/
inductive Node where
  | file
  | block (before : List Stmt) (cur : Stmt) (after : List Stmt)
  | stmt (s : Stmt)
  | expr (e : Expr)

/-- The scan of `restOfBlock` from the top of the stack downwards: the
first enclosing block yields the suffix of its statements starting at the
statement containing the call; no block yields the empty suffix (Go:
`nil`). -/
def restOfBlockRev : List Node → List Stmt
  | [] => []
  | .block _ cur after :: _ => cur :: after
  | _ :: rest => restOfBlockRev rest

/-- `helpers.go restOfBlock`: find the innermost containing block and
return the suffix of its statements starting with the statement containing
the current node; empty when there is no enclosing block. -/
def restOfBlock (stack : List Node) : List Stmt :=
  restOfBlockRev stack.reverse

/-- The payload of an emitted `analysis.Diagnostic` (source positions are
not modelled); `ruleName` records the rule passed to `report`, which
determines the diagnostic's category and message. -/
structure Report where
  ruleName : String
  category : String
  message : String
deriving DecidableEq

/-- `analyzer.go report` (current revision): the diagnostic carries the
rule's category verbatim and the message
`Rule.name(name) ++ " must be called"`. -/
def reportD (r : CRule) (identName : String) : Report :=
  { ruleName := r.name, category := r.category,
    message := r.fmtName identName ++ " must be called" }

/-- The process-wide default category. Modelled from the embedded default
configuration `.uncalled.yaml` (`default-category: uncalled`); the current
`Config` struct in `config.go` has no `DefaultCategory` field and the
current `report` does not read it. -/
def defaultCategory : String := "uncalled"

/-- The final loop of `analyzer.go checkRule`: for every active rule, run
the tracker over the statement suffix and report when it fails. -/
def reportRules (active : List CRule) (tr : TypeOracle) (obj : ObjId) (identName : String)
    (stmts : List Stmt) : List Report :=
  match active with
  | [] => []
  | ru :: rest =>
    if visit ru tr obj stmts then reportRules rest tr obj identName stmts
    else reportD ru identName :: reportRules rest tr obj identName stmts

/-- `analyzer.go checkRule` for one matched candidate rule: signature
match, statement-suffix lookup (`stmts[0]` on an empty suffix is a Go
index-out-of-range panic, modelled as `Except.error`), result binding
lookup (`stmt.Lhs[rule.expects.idx]`, also a potential panic), the
short-suffix report, and the per-active-rule tracking loop. The returned
list is every diagnostic emitted for this call site. -/
def checkRule (active : List CRule) (rule : CRule) (tr : TypeOracle)
    (sigResults : List (Option String)) (stack : List Node) : Except String (List Report) :=
  if !rule.matchesResults sigResults then .ok []
  else
    match restOfBlock stack with
    | [] => .error "panic: runtime error: index out of range"
    | s0 :: rest =>
      match s0 with
      | .assign lhs _ =>
        match lhs.get? rule.expectsIdx with
        | none => .error "panic: runtime error: index out of range"
        | some node =>
          match rootIdent node with
          | none => .ok []
          | some (nm, obj) =>
            if rest.isEmpty then .ok [reportD rule nm]
            else .ok (reportRules active tr obj nm rest)
      | _ => .ok [reportD rule ""]

/-! ## Configuration validation (`config.go Config.validate`) -/

/-- `config.go Config` (current revision): disable-all flag, disabled and
enabled rule-name lists, and the rule list. -/
structure Config where
  disableAll : Bool
  disabled : List String
  enabled : List String
  rules : List Rule

/-- The first loop of `Config.validate`: every rule must validate. -/
def validateRules : List Rule → Except String Unit
  | [] => .ok ()
  | r :: rest =>
    match r.validate with
    | .error m => .error m
    | .ok _ => validateRules rest

/-- Map-key removal from the active set (`delete(c.active, r)`). -/
def removeName (nm : String) (l : List String) : List String :=
  l.filter (fun x => x != nm)

/-- Map-key insertion into the active set (`c.active[name] = r`). -/
def addName (nm : String) (l : List String) : List String :=
  if nm ∈ l then l else nm :: l

/-- The `Disabled` loop of `Config.validate`: unknown names are an error;
known names are removed from the active set. -/
def applyDisabled (ruleNames : List String) : List String → List String →
    Except String (List String)
  | [], active => .ok active
  | d :: ds, active =>
    if d ∈ ruleNames then applyDisabled ruleNames ds (removeName d active)
    else .error "in disabled unknown"

/-- The `Enabled` loop of `Config.validate`: unknown names and names also
present in `Disabled` are errors; otherwise the name is (re-)added to the
active set. -/
def applyEnabled (ruleNames disabled : List String) : List String → List String →
    Except String (List String)
  | [], active => .ok active
  | e :: es, active =>
    if e ∉ ruleNames then .error "in enabled unknown"
    else if e ∈ disabled then .error "in both enabled and disabled"
    else applyEnabled ruleNames disabled es (addName e active)

/-- `config.go Config.validate`, with the resulting active rule set
returned as the list of its rule names: validate every rule, seed the
active set with every rule name (none when `DisableAll`), then apply the
`Disabled` and `Enabled` lists. -/
def Config.validate (c : Config) : Except String (List String) :=
  match validateRules c.rules with
  | .error m => .error m
  | .ok _ =>
    let ruleNames := c.rules.map Rule.name
    let active0 := if c.disableAll then [] else ruleNames
    match applyDisabled ruleNames c.disabled active0 with
    | .error m => .error m
    | .ok act1 =>
      match applyEnabled ruleNames c.disabled c.enabled act1 with
      | .error m => .error m
      | .ok act2 => .ok act2

/-! ## The specification predicate for claims C1 and C2: the expected call
appears in a statement suffix on the tracked identifier or on an
identifier reachable from it by plain re-assignment chains -/

mutual
/-- The expected call of rule `r` occurs (fuelled recursion, like the
walker) somewhere inside the expression on an identifier with object id
`o`, at a position `ast.Walk` visits: as the call itself, inside the
callee chain, inside an argument, or inside a nested function literal
body. -/
def containsCallE (r : CRule) (tr : TypeOracle) (o : ObjId) : Nat → Expr → Bool
  | 0, _ => false
  | fuel + 1, e =>
    match e with
    | .call fn args =>
      (callHit r tr args.length fn == some o) || containsCallE r tr o fuel fn ||
        containsCallEs r tr o fuel args
    | .selector x _ => containsCallE r tr o fuel x
    | .funcLit _ body => containsCallSs r tr o fuel body
    | .binop x y => containsCallE r tr o fuel x || containsCallE r tr o fuel y
    | .unop x => containsCallE r tr o fuel x
    | .ident _ _ => false
    | .basic => false

/-- `containsCallE` over an expression list. -/
def containsCallEs (r : CRule) (tr : TypeOracle) (o : ObjId) : Nat → List Expr → Bool
  | 0, _ => false
  | fuel + 1, es =>
    match es with
    | [] => false
    | e :: rest => containsCallE r tr o fuel e || containsCallEs r tr o fuel rest

/-- The expected call of rule `r` occurs on object `o` somewhere inside a
statement, at a position `ast.Walk` visits. -/
def containsCallS (r : CRule) (tr : TypeOracle) (o : ObjId) : Nat → Stmt → Bool
  | 0, _ => false
  | fuel + 1, s =>
    match s with
    | .assign lhs rhs => containsCallEs r tr o fuel lhs || containsCallEs r tr o fuel rhs
    | .exprStmt x => containsCallE r tr o fuel x
    | .deferStmt x => containsCallE r tr o fuel x
    | .block ss => containsCallSs r tr o fuel ss
    | .ifStmt ini cond body els =>
      containsCallOS r tr o fuel ini || containsCallE r tr o fuel cond ||
        containsCallSs r tr o fuel body || containsCallOS r tr o fuel els
    | .forStmt ini cond post body =>
      containsCallOS r tr o fuel ini || containsCallOE r tr o fuel cond ||
        containsCallOS r tr o fuel post || containsCallSs r tr o fuel body
    | .rangeStmt key value x body =>
      containsCallOE r tr o fuel key || containsCallOE r tr o fuel value ||
        containsCallE r tr o fuel x || containsCallSs r tr o fuel body
    | .returnStmt results => containsCallEs r tr o fuel results
    | .other => false

/-- `containsCallS` over a statement list. -/
def containsCallSs (r : CRule) (tr : TypeOracle) (o : ObjId) : Nat → List Stmt → Bool
  | 0, _ => false
  | fuel + 1, ss =>
    match ss with
    | [] => false
    | s :: rest => containsCallS r tr o fuel s || containsCallSs r tr o fuel rest

/-- `containsCallS` over an optional statement. -/
def containsCallOS (r : CRule) (tr : TypeOracle) (o : ObjId) : Nat → Option Stmt → Bool
  | 0, _ => false
  | fuel + 1, os =>
    match os with
    | none => false
    | some s => containsCallS r tr o fuel s

/-- `containsCallE` over an optional expression. -/
def containsCallOE (r : CRule) (tr : TypeOracle) (o : ObjId) : Nat → Option Expr → Bool
  | 0, _ => false
  | fuel + 1, oe =>
    match oe with
    | none => false
    | some e => containsCallE r tr o fuel e
end

/-- `containsCallS` with enough fuel for its statement. -/
def stmtHasCall (r : CRule) (tr : TypeOracle) (o : ObjId) (s : Stmt) : Bool :=
  containsCallS r tr o (sizeS s) s

/-- The alias objects visible after one top-level statement of a suffix:
a plain assignment propagates aliases exactly as `assignStmtMatches`
does; any other statement leaves the set unchanged. -/
def aliasStep (s : Stmt) (objs : List ObjId) : List ObjId :=
  match s with
  | .assign lhs rhs => assignMatches lhs rhs objs
  | _ => objs

/-- The hypothesis of claims C1/C2, following the specification: the
rule's expected call appears somewhere in the statement suffix on one of
the given alias objects, where the alias set grows along the suffix by
plain identifier-to-identifier re-assignment chains. -/
def suffixSat (r : CRule) (tr : TypeOracle) (objs : List ObjId) : List Stmt → Bool
  | [] => false
  | s :: rest =>
    objs.any (fun o => stmtHasCall r tr o s) || suffixSat r tr (aliasStep s objs) rest



/-! ## Derived definitions used to state the claims, and concrete
instances used by the witnesses -/

/-- State extension: the alias set and the deferred-call table only grow,
and the found flag never resets. -/
def StLe (st st' : VState) : Prop :=
  (∀ o, o ∈ st.identObjs → o ∈ st'.identObjs) ∧
  (∀ x i, i ∈ lookupArgs st.calledArgs x → i ∈ lookupArgs st'.calledArgs x) ∧
  (st.found = true → st'.found = true)

/-- The number of `Expect`-bearing results of a rule. -/
def expectCount (rs : List Result) : Nat :=
  (rs.filter (fun res => res.expect.isSome)).length

/-- The `sql-rows-err` rule of the embedded default configuration
(`.uncalled.yaml`), restricted to the `database/sql` package. -/
def ruleSQL : Rule :=
  { name := "sql-rows-err", category := "sql", packages := ["database/sql"],
    results := [⟨".Rows", true, some ⟨".Err", []⟩⟩, ⟨"error", false, none⟩] }

/-- The compiled form of `ruleSQL` (the value `Rule.validate` produces). -/
def crSQL : CRule :=
  { name := "sql-rows-err", category := "sql", packages := ["database/sql"],
    results := [⟨".Rows", true, some ⟨".Err", []⟩⟩, ⟨"error", false, none⟩],
    expectsIdx := 0, expectsType := ".Rows", expectsCall := ".Err", expectsArgs := [],
    expectedCalls := ["*database/sql.Rows.Err"], expectedTypes := ["*database/sql.Rows"] }

/-- `crSQL` with an empty category, for the diagnostic-category claim. -/
def crNoCat : CRule :=
  { name := "sql-rows-err", category := "", packages := ["database/sql"],
    results := [⟨".Rows", true, some ⟨".Err", []⟩⟩, ⟨"error", false, none⟩],
    expectsIdx := 0, expectsType := ".Rows", expectsCall := ".Err", expectsArgs := [],
    expectedCalls := ["*database/sql.Rows.Err"], expectedTypes := ["*database/sql.Rows"] }

/-- A type oracle resolving the objects of the concrete examples: object 1
(`rows`) and its aliases 2 and 3, and 7 (a literal's parameter). -/
def trSQL : TypeOracle :=
  ⟨fun o => if o == 1 || o == 2 || o == 3 || o == 7 then some "*database/sql.Rows" else none⟩

/-- `db.Query("...")`. -/
def queryCall : Expr :=
  .call (.selector (.ident "db" 9) "Query") [.basic]

/-- `rows, _ := db.Query("...")`. -/
def assignRows : Stmt :=
  .assign [.ident "rows" 1, .ident "_" 8] [queryCall]

/-- `rows.Err()` as an expression statement. -/
def errStmt : Stmt :=
  .exprStmt (.call (.selector (.ident "rows" 1) "Err") [])

/-- The observed result-type tuple of `db.Query`: `(*sql.Rows, error)`. -/
def sigSQL : List (Option String) :=
  [some "*database/sql.Rows", some "error"]

/-- A traversal stack for `rows, _ := db.Query(...)` followed by
`rows.Err()` inside a function body. -/
def stackW : List Node :=
  [.file, .block [] assignRows [errStmt], .stmt assignRows, .expr queryCall]

/-- A traversal stack for `rows, _ := db.Query(...)` as the last statement
of its block. -/
def stackShort : List Node :=
  [.file, .block [] assignRows [], .stmt assignRows, .expr queryCall]

/-- A traversal stack for a matched call with no enclosing block, as for a
package-scope `var rows, _ = db.Query(...)` initialiser. -/
def stackNoBlock : List Node :=
  [.file, .expr queryCall]

/-- A rule with two `Expect`-bearing results, rejected by validation. -/
def ruleTwoExpect : Rule :=
  { name := "two-expects", category := "", packages := ["database/sql"],
    results := [⟨".Rows", true, some ⟨".Err", []⟩⟩, ⟨".Tx", true, some ⟨".Commit", []⟩⟩] }

/-- A concrete configuration for the enable/disable-list claim: one valid
rule, disabled by name and not re-enabled. -/
def cfgW : Config :=
  { disableAll := false, disabled := ["sql-rows-err"], enabled := [], rules := [ruleSQL] }

/-! ## Helper lemmas: state extension order and the small state operations -/

theorem StLe.refl (st : VState) : StLe st st :=
  ⟨fun _ h => h, fun _ _ h => h, fun h => h⟩

theorem StLe.trans {a b c : VState} (h1 : StLe a b) (h2 : StLe b c) : StLe a c :=
  ⟨fun o h => h2.1 o (h1.1 o h), fun x i h => h2.2.1 x i (h1.2.1 x i h),
   fun h => h2.2.2 (h1.2.2 h)⟩

theorem StLe.setFound (st : VState) : StLe st { st with found := true } :=
  ⟨fun _ h => h, fun _ _ h => h, fun _ => rfl⟩

theorem mem_addObj_self (o : ObjId) (l : List ObjId) : o ∈ addObj o l := by
  by_cases h : o ∈ l <;> simp [addObj, h]

theorem mem_addObj_of_mem (o o' : ObjId) (l : List ObjId) (h : o' ∈ l) : o' ∈ addObj o l := by
  by_cases h2 : o ∈ l <;> simp [addObj, h2, h]

theorem mem_addObj_cases (o x : ObjId) (l : List ObjId) (h : x ∈ addObj o l) :
    x = o ∨ x ∈ l := by
  by_cases h2 : o ∈ l
  · simp only [addObj, h2, if_true] at h; exact Or.inr h
  · simp only [addObj, h2, if_false, List.mem_cons] at h; exact h

theorem addObj_subset (o : ObjId) (objs objs' : List ObjId)
    (hsub : ∀ x, x ∈ objs → x ∈ objs') :
    ∀ x, x ∈ addObj o objs → x ∈ addObj o objs' := by
  intro x hx
  rcases mem_addObj_cases o x objs hx with h | h
  · exact h ▸ mem_addObj_self o objs'
  · exact mem_addObj_of_mem _ _ _ (hsub _ h)

theorem assignMatches_mono (lhs : List Expr) : ∀ (rhs : List Expr) (objs : List ObjId) (o : ObjId),
    o ∈ objs → o ∈ assignMatches lhs rhs objs := by
  induction lhs with
  | nil => intro rhs objs o h; cases rhs <;> simpa [assignMatches] using h
  | cons lh ls ih =>
    intro rhs objs o h
    cases rhs with
    | nil => simpa [assignMatches] using h
    | cons rh rs =>
      cases rh with
      | ident rn ro =>
        by_cases hro : ro ∈ objs
        · cases lh <;>
            simp only [assignMatches, hro, if_true] <;>
            first
              | exact ih rs _ o (mem_addObj_of_mem _ _ _ h)
              | exact ih rs _ o h
        · simp only [assignMatches, hro, if_false]
          exact ih rs _ o h
      | selector x s => simpa only [assignMatches] using ih rs _ o h
      | call fn args => simpa only [assignMatches] using ih rs _ o h
      | funcLit p b => simpa only [assignMatches] using ih rs _ o h
      | binop x y => simpa only [assignMatches] using ih rs _ o h
      | unop x => simpa only [assignMatches] using ih rs _ o h
      | basic => simpa only [assignMatches] using ih rs _ o h

theorem assignMatches_subset (lhs : List Expr) :
    ∀ (rhs : List Expr) (objs objs' : List ObjId),
    (∀ o, o ∈ objs → o ∈ objs') →
    ∀ o, o ∈ assignMatches lhs rhs objs → o ∈ assignMatches lhs rhs objs' := by
  induction lhs with
  | nil => intro rhs objs objs' hsub o h; cases rhs <;> simp_all [assignMatches]
  | cons lh ls ih =>
    intro rhs objs objs' hsub o h
    cases rhs with
    | nil => simp_all [assignMatches]
    | cons rh rs =>
      cases rh with
      | ident rn ro =>
        by_cases hro : ro ∈ objs
        · have hro2 : ro ∈ objs' := hsub _ hro
          cases lh <;>
            simp only [assignMatches, hro, hro2, if_true] at h ⊢ <;>
            first
              | exact ih rs _ _ (addObj_subset _ _ _ hsub) o h
              | exact ih rs _ _ hsub o h
        · simp only [assignMatches, hro, if_false] at h
          by_cases hro2 : ro ∈ objs'
          · cases lh <;>
              simp only [assignMatches, hro2, if_true] <;>
              first
                | exact ih rs _ _ (fun x hx => mem_addObj_of_mem _ _ _ (hsub _ hx)) o h
                | exact ih rs _ _ hsub o h
          · simp only [assignMatches, hro2, if_false]
            exact ih rs _ _ hsub o h
      | selector a b =>
        simp only [assignMatches] at h ⊢; exact ih rs _ _ hsub o h
      | call a b =>
        simp only [assignMatches] at h ⊢; exact ih rs _ _ hsub o h
      | funcLit a b =>
        simp only [assignMatches] at h ⊢; exact ih rs _ _ hsub o h
      | binop a b =>
        simp only [assignMatches] at h ⊢; exact ih rs _ _ hsub o h
      | unop a =>
        simp only [assignMatches] at h ⊢; exact ih rs _ _ hsub o h
      | basic =>
        simp only [assignMatches] at h ⊢; exact ih rs _ _ hsub o h


theorem lookupArgs_addCalledArg_mono (o : ObjId) (j : Nat) (ca : List (ObjId × List Nat)) :
    ∀ (x : ObjId) (i : Nat), i ∈ lookupArgs ca x → i ∈ lookupArgs (addCalledArg o j ca) x := by
  induction ca with
  | nil => intro x i h; simp [lookupArgs, List.find?] at h
  | cons p rest ih =>
    intro x i h
    obtain ⟨o2, js⟩ := p
    by_cases ho : o2 == o
    · simp only [addCalledArg, ho, if_true]
      by_cases hx : o2 == x
      · simp only [lookupArgs, List.find?, hx] at h ⊢
        by_cases hj : j ∈ js <;> simp [hj, h]
      · simpa only [lookupArgs, List.find?, hx] using h
    · simp only [addCalledArg, ho, if_false]
      by_cases hx : o2 == x
      · simpa only [lookupArgs, List.find?, hx] using h
      · simp only [lookupArgs, List.find?, hx] at h ⊢
        exact ih x i h

theorem lookupArgs_addCalledArg_self (o : ObjId) (j : Nat) (ca : List (ObjId × List Nat)) :
    j ∈ lookupArgs (addCalledArg o j ca) o := by
  induction ca with
  | nil => simp [addCalledArg, lookupArgs, List.find?]
  | cons p rest ih =>
    obtain ⟨o2, js⟩ := p
    by_cases ho : o2 == o
    · have hoe : o2 = o := by simpa using ho
      simp only [addCalledArg, ho, if_true, lookupArgs, List.find?, hoe, beq_self_eq_true]
      by_cases hj : j ∈ js <;> simp [hj]
    · simp only [addCalledArg, ho, if_false, lookupArgs, List.find?, ho]
      simpa only [lookupArgs] using ih

theorem visitCallNode_stle (r : CRule) (tr : TypeOracle) (n : Nat) (fn : Expr) (st : VState) :
    StLe st (visitCallNode r tr n fn st).1 := by
  unfold visitCallNode
  cases callHit r tr n fn with
  | none => exact StLe.refl st
  | some o =>
    by_cases h : o ∈ st.identObjs
    · simp only [h, if_true]; exact StLe.setFound st
    · simp only [h, if_false]; exact StLe.refl st

theorem visitCallNode_false_fst (r : CRule) (tr : TypeOracle) (n : Nat) (fn : Expr)
    (st : VState) (h : (visitCallNode r tr n fn st).2 = false) :
    (visitCallNode r tr n fn st).1 = st := by
  unfold visitCallNode at *
  cases hc : callHit r tr n fn with
  | none => rfl
  | some o =>
    by_cases hm : o ∈ st.identObjs
    · simp [hc, hm] at h
    · simp [hc, hm]

theorem visitCallNode_true_found (r : CRule) (tr : TypeOracle) (n : Nat) (fn : Expr)
    (st : VState) (h : (visitCallNode r tr n fn st).2 = true) :
    (visitCallNode r tr n fn st).1.found = true := by
  unfold visitCallNode at *
  cases hc : callHit r tr n fn with
  | none => simp [hc] at h
  | some o =>
    by_cases hm : o ∈ st.identObjs
    · simp [hc, hm]
    · simp [hc, hm] at h

theorem visitCallNode_hit (r : CRule) (tr : TypeOracle) (n : Nat) (fn : Expr) (st : VState)
    (o : ObjId) (hc : callHit r tr n fn = some o) (hm : o ∈ st.identObjs) :
    visitCallNode r tr n fn st = ({ st with found := true }, true) := by
  simp [visitCallNode, hc, hm]

theorem argsHit_of_get (st : VState) (h : ObjId) (args : List Expr) :
    ∀ (k j : Nat) (nm : String) (a : ObjId), args.get? j = some (.ident nm a) →
    a ∈ st.identObjs → (k + j) ∈ lookupArgs st.calledArgs h →
    argsHit st h args k = true := by
  induction args with
  | nil => intro k j nm a hg; simp at hg
  | cons e rest ih =>
    intro k j nm a hg hmem hrec
    cases j with
    | zero =>
      simp only [List.get?, Option.some.injEq] at hg
      subst hg
      simp only [Nat.add_zero] at hrec
      simp [argsHit, hmem, hrec]
    | succ j2 =>
      simp only [List.get?] at hg
      have : (k + 1) + j2 ∈ lookupArgs st.calledArgs h := by
        have : k + (j2 + 1) = (k + 1) + j2 := by omega
        rwa [this] at hrec
      have hrest := ih (k + 1) j2 nm a hg hmem this
      simp [argsHit, hrest]

theorem sizeE_pos (e : Expr) : 1 ≤ sizeE e := by
  cases e <;> simp [sizeE] <;> omega

theorem sizeEs_pos (es : List Expr) : 1 ≤ sizeEs es := by
  cases es <;> simp [sizeEs] <;> omega

theorem sizeOptE_pos (o : Option Expr) : 1 ≤ sizeOptE o := by
  cases o <;> simp [sizeOptE] <;> omega

theorem sizeS_pos (s : Stmt) : 1 ≤ sizeS s := by
  cases s <;> simp [sizeS] <;> omega

theorem sizeSs_pos (ss : List Stmt) : 1 ≤ sizeSs ss := by
  cases ss <;> simp [sizeSs] <;> omega

theorem sizeOptS_pos (o : Option Stmt) : 1 ≤ sizeOptS o := by
  cases o <;> simp [sizeOptS] <;> omega

theorem sizeFs_pos (fs : List Field) : 1 ≤ sizeFs fs := by
  cases fs <;> simp [sizeFs] <;> omega


/-- Monotonicity of the whole walk: every step of the visitor only extends
the state (alias set and deferred-call table grow, `found` never resets),
whatever the fuel. -/
theorem walk_mono (r : CRule) (tr : TypeOracle) : ∀ fuel : Nat,
    (∀ s st, StLe st (walkStmt r tr fuel s st)) ∧
    (∀ o st, StLe st (walkOptStmt r tr fuel o st)) ∧
    (∀ o st, StLe st (walkOptExpr r tr fuel o st)) ∧
    (∀ ss st, StLe st (walkStmts r tr fuel ss st)) ∧
    (∀ es st, StLe st (walkExprs r tr fuel es st)) ∧
    (∀ e st, StLe st (walkExpr r tr fuel e st)) ∧
    (∀ lhs rhs st, StLe st (assignFuncLits r tr fuel lhs rhs st)) ∧
    (∀ h fs body st, StLe st (procParams r tr fuel h fs body st)) ∧
    (∀ h ns j body st, StLe st (procNames r tr fuel h ns j body st)) := by
  intro fuel
  induction fuel with
  | zero =>
    refine ⟨?_, ?_, ?_, ?_, ?_, ?_, ?_, ?_, ?_⟩ <;> intros <;>
      first
        | exact (by simp only [walkStmt]; exact StLe.refl _)
        | exact (by simp only [walkOptStmt]; exact StLe.refl _)
        | exact (by simp only [walkOptExpr]; exact StLe.refl _)
        | exact (by simp only [walkStmts]; exact StLe.refl _)
        | exact (by simp only [walkExprs]; exact StLe.refl _)
        | exact (by simp only [walkExpr]; exact StLe.refl _)
        | exact (by simp only [assignFuncLits]; exact StLe.refl _)
        | exact (by simp only [procParams]; exact StLe.refl _)
        | exact (by simp only [procNames]; exact StLe.refl _)
  | succ n ih =>
    obtain ⟨ihS, ihOS, ihOE, ihSs, ihEs, ihE, ihAF, ihPP, ihPN⟩ := ih
    have hfound : ∀ st : VState, st.found = true → StLe st { st with found := true } :=
      fun st _ => StLe.setFound st
    refine ⟨?_, ?_, ?_, ?_, ?_, ?_, ?_, ?_, ?_⟩
    · -- walkStmt
      intro s st
      obtain ⟨io, ca, fnd⟩ := st
      cases fnd with
      | true => simp only [walkStmt, if_true]; exact StLe.refl _
      | false =>
        cases s with
        | assign lhs rhs =>
          simp only [walkStmt, Bool.false_eq_true, if_false]
          have h1 : StLe ⟨io, ca, false⟩ ⟨assignMatches lhs rhs io, ca, false⟩ :=
            ⟨fun o ho => assignMatches_mono lhs rhs io o ho,
             fun _ _ hi => hi, fun h => h⟩
          exact ((h1.trans (ihAF lhs rhs _)).trans (ihEs lhs _)).trans (ihEs rhs _)
        | exprStmt x =>
          simp only [walkStmt, Bool.false_eq_true, if_false]; exact ihE x _
        | deferStmt x =>
          simp only [walkStmt, Bool.false_eq_true, if_false]; exact ihE x _
        | block ss =>
          simp only [walkStmt, Bool.false_eq_true, if_false]; exact ihSs ss _
        | ifStmt ini cond body els =>
          simp only [walkStmt, Bool.false_eq_true, if_false]
          exact (((ihOS ini _).trans (ihE cond _)).trans (ihSs body _)).trans (ihOS els _)
        | forStmt ini cond post body =>
          simp only [walkStmt, Bool.false_eq_true, if_false]
          exact (((ihOS ini _).trans (ihOE cond _)).trans (ihOS post _)).trans (ihSs body _)
        | rangeStmt key value x body =>
          simp only [walkStmt, Bool.false_eq_true, if_false]
          exact (((ihOE key _).trans (ihOE value _)).trans (ihE x _)).trans (ihSs body _)
        | returnStmt results =>
          simp only [walkStmt, Bool.false_eq_true, if_false]; exact ihEs results _
        | other =>
          simp only [walkStmt, Bool.false_eq_true, if_false]; exact StLe.refl _
    · -- walkOptStmt
      intro o st
      cases o with
      | none => simp only [walkOptStmt]; exact StLe.refl st
      | some s => simp only [walkOptStmt]; exact ihS s st
    · -- walkOptExpr
      intro o st
      cases o with
      | none => simp only [walkOptExpr]; exact StLe.refl st
      | some e => simp only [walkOptExpr]; exact ihE e st
    · -- walkStmts
      intro ss st
      cases ss with
      | nil => simp only [walkStmts]; exact StLe.refl st
      | cons s rest => simp only [walkStmts]; exact (ihS s st).trans (ihSs rest _)
    · -- walkExprs
      intro es st
      cases es with
      | nil => simp only [walkExprs]; exact StLe.refl st
      | cons e rest => simp only [walkExprs]; exact (ihE e st).trans (ihEs rest _)
    · -- walkExpr
      intro e st
      obtain ⟨io, ca, fnd⟩ := st
      cases fnd with
      | true => simp only [walkExpr, if_true]; exact StLe.refl _
      | false =>
        set st : VState := ⟨io, ca, false⟩ with hst
        cases e with
        | call fn args =>
          cases fn with
          | selector sx ssel =>
            simp only [walkExpr, hst, Bool.false_eq_true, if_false]
            by_cases hp : (visitCallNode r tr args.length (.selector sx ssel) st).2 = true
            · simp only [hp, if_true]
              exact visitCallNode_stle r tr args.length (.selector sx ssel) st
            · simp only [Bool.not_eq_true] at hp
              simp only [hp, Bool.false_eq_true, if_false]
              exact ((visitCallNode_stle r tr args.length (.selector sx ssel) st).trans
                (ihE (.selector sx ssel) _)).trans (ihEs args _)
          | ident fname fo =>
            simp only [walkExpr, hst, Bool.false_eq_true, if_false]
            by_cases hp : (visitCallNode r tr args.length (.ident fname fo) st).2 = true
            · simp only [hp, if_true]
              exact visitCallNode_stle r tr args.length (.ident fname fo) st
            · simp only [Bool.not_eq_true] at hp
              simp only [hp, Bool.false_eq_true, if_false]
              by_cases ha : argsHit (visitCallNode r tr args.length (.ident fname fo) st).1 fo
                  args 0 = true
              · simp only [ha, if_true]
                exact (visitCallNode_stle r tr args.length (.ident fname fo) st).trans
                  (StLe.setFound _)
              · simp only [Bool.not_eq_true] at ha
                simp only [ha, Bool.false_eq_true, if_false]
                exact ((visitCallNode_stle r tr args.length (.ident fname fo) st).trans
                  (ihE (.ident fname fo) _)).trans (ihEs args _)
          | call a b =>
            simp only [walkExpr, hst, Bool.false_eq_true, if_false]
            exact (ihE (.call a b) st).trans (ihEs args _)
          | funcLit a b =>
            simp only [walkExpr, hst, Bool.false_eq_true, if_false]
            exact (ihE (.funcLit a b) st).trans (ihEs args _)
          | binop a b =>
            simp only [walkExpr, hst, Bool.false_eq_true, if_false]
            exact (ihE (.binop a b) st).trans (ihEs args _)
          | unop a =>
            simp only [walkExpr, hst, Bool.false_eq_true, if_false]
            exact (ihE (.unop a) st).trans (ihEs args _)
          | basic =>
            simp only [walkExpr, hst, Bool.false_eq_true, if_false]
            exact (ihE .basic st).trans (ihEs args _)
        | selector x ssel =>
          simp only [walkExpr, hst, Bool.false_eq_true, if_false]; exact ihE x st
        | funcLit params body =>
          simp only [walkExpr, hst, Bool.false_eq_true, if_false]; exact ihSs body st
        | binop x y =>
          simp only [walkExpr, hst, Bool.false_eq_true, if_false]
          exact (ihE x st).trans (ihE y _)
        | unop x =>
          simp only [walkExpr, hst, Bool.false_eq_true, if_false]; exact ihE x st
        | ident nm o =>
          simp only [walkExpr, hst, Bool.false_eq_true, if_false]; exact StLe.refl st
        | basic =>
          simp only [walkExpr, hst, Bool.false_eq_true, if_false]; exact StLe.refl st
    · -- assignFuncLits
      intro lhs rhs st
      cases lhs with
      | nil => simp only [assignFuncLits]; exact StLe.refl st
      | cons lh ls =>
        cases rhs with
        | nil => simp only [assignFuncLits]; exact StLe.refl st
        | cons rh rs =>
          cases rh with
          | funcLit params body =>
            simp only [assignFuncLits]
            by_cases hb : body.isEmpty = true
            · simp only [hb, if_true]; exact ihAF ls rs st
            · simp only [Bool.not_eq_true] at hb
              simp only [hb, Bool.false_eq_true, if_false]
              cases lh with
              | ident ln lo => exact (ihPP lo params body st).trans (ihAF ls rs _)
              | selector a b => exact ihAF ls rs st
              | call a b => exact ihAF ls rs st
              | funcLit a b => exact ihAF ls rs st
              | binop a b => exact ihAF ls rs st
              | unop a => exact ihAF ls rs st
              | basic => exact ihAF ls rs st
          | ident a b => simp only [assignFuncLits]; exact ihAF ls rs st
          | selector a b => simp only [assignFuncLits]; exact ihAF ls rs st
          | call a b => simp only [assignFuncLits]; exact ihAF ls rs st
          | binop a b => simp only [assignFuncLits]; exact ihAF ls rs st
          | unop a => simp only [assignFuncLits]; exact ihAF ls rs st
          | basic => simp only [assignFuncLits]; exact ihAF ls rs st
    · -- procParams
      intro h fs body st
      cases fs with
      | nil => simp only [procParams]; exact StLe.refl st
      | cons f rest =>
        obtain ⟨fnames, ftype⟩ := f
        simp only [procParams]
        by_cases hc : containsType ftype r.expectedTypes = true
        · simp only [hc, if_true]
          exact (ihPN h fnames 0 body st).trans (ihPP h rest body _)
        · simp only [Bool.not_eq_true] at hc
          simp only [hc, Bool.false_eq_true, if_false]
          exact ihPP h rest body st
    · -- procNames
      intro h ns j body st
      cases ns with
      | nil => simp only [procNames]; exact StLe.refl st
      | cons p rest =>
        obtain ⟨pn, pObj⟩ := p
        simp only [procNames]
        by_cases hw : (walkStmts r tr n body (initState pObj)).found = true
        · simp only [hw, if_true]
          have h1 : StLe st { st with calledArgs := addCalledArg h j st.calledArgs } :=
            ⟨fun _ ho => ho,
             fun x i hi => lookupArgs_addCalledArg_mono h j st.calledArgs x i hi,
             fun hh => hh⟩
          exact h1.trans (ihPN h rest (j + 1) body _)
        · simp only [Bool.not_eq_true] at hw
          simp only [hw, Bool.false_eq_true, if_false]
          exact ihPN h rest (j + 1) body st


/-- Fuel irrelevance: any two fuels that dominate the recursion measure of
the walked syntax give the same result, so the walker's behaviour is the
(fuel-free) behaviour of the Go visitor whenever the fuel is large
enough. -/
theorem walk_fuel_irrel (r : CRule) (tr : TypeOracle) : ∀ f1 : Nat,
    (∀ f2 s st, sizeS s ≤ f1 → sizeS s ≤ f2 →
      walkStmt r tr f1 s st = walkStmt r tr f2 s st) ∧
    (∀ f2 o st, sizeOptS o ≤ f1 → sizeOptS o ≤ f2 →
      walkOptStmt r tr f1 o st = walkOptStmt r tr f2 o st) ∧
    (∀ f2 o st, sizeOptE o ≤ f1 → sizeOptE o ≤ f2 →
      walkOptExpr r tr f1 o st = walkOptExpr r tr f2 o st) ∧
    (∀ f2 ss st, sizeSs ss ≤ f1 → sizeSs ss ≤ f2 →
      walkStmts r tr f1 ss st = walkStmts r tr f2 ss st) ∧
    (∀ f2 es st, sizeEs es ≤ f1 → sizeEs es ≤ f2 →
      walkExprs r tr f1 es st = walkExprs r tr f2 es st) ∧
    (∀ f2 e st, sizeE e ≤ f1 → sizeE e ≤ f2 →
      walkExpr r tr f1 e st = walkExpr r tr f2 e st) ∧
    (∀ f2 lhs rhs st, sizeEs lhs + sizeEs rhs ≤ f1 → sizeEs lhs + sizeEs rhs ≤ f2 →
      assignFuncLits r tr f1 lhs rhs st = assignFuncLits r tr f2 lhs rhs st) ∧
    (∀ f2 h fs body st, sizeFs fs + sizeSs body ≤ f1 → sizeFs fs + sizeSs body ≤ f2 →
      procParams r tr f1 h fs body st = procParams r tr f2 h fs body st) ∧
    (∀ f2 h ns j body st, ns.length + sizeSs body ≤ f1 → ns.length + sizeSs body ≤ f2 →
      procNames r tr f1 h ns j body st = procNames r tr f2 h ns j body st) := by
  intro f1
  induction f1 with
  | zero =>
    refine ⟨?_, ?_, ?_, ?_, ?_, ?_, ?_, ?_, ?_⟩
    · intro f2 s st h1 h2; have := sizeS_pos s; exact absurd h1 (by omega)
    · intro f2 o st h1 h2; have := sizeOptS_pos o; exact absurd h1 (by omega)
    · intro f2 o st h1 h2; have := sizeOptE_pos o; exact absurd h1 (by omega)
    · intro f2 ss st h1 h2; have := sizeSs_pos ss; exact absurd h1 (by omega)
    · intro f2 es st h1 h2; have := sizeEs_pos es; exact absurd h1 (by omega)
    · intro f2 e st h1 h2; have := sizeE_pos e; exact absurd h1 (by omega)
    · intro f2 lhs rhs st h1 h2; have := sizeEs_pos lhs; exact absurd h1 (by omega)
    · intro f2 h fs body st h1 h2; have := sizeFs_pos fs; exact absurd h1 (by omega)
    · intro f2 h ns j body st h1 h2; have := sizeSs_pos body; exact absurd h1 (by omega)
  | succ a ih =>
    obtain ⟨ihS, ihOS, ihOE, ihSs, ihEs, ihE, ihAF, ihPP, ihPN⟩ := ih
    refine ⟨?_, ?_, ?_, ?_, ?_, ?_, ?_, ?_, ?_⟩
    · -- walkStmt
      intro f2 s st h1 h2
      obtain ⟨b, rfl⟩ : ∃ b, f2 = b + 1 := ⟨f2 - 1, by have := sizeS_pos s; omega⟩
      by_cases hf : st.found = true
      · simp only [walkStmt, hf, if_true]
      · simp only [Bool.not_eq_true] at hf
        cases s with
        | assign lhs rhs =>
          simp only [sizeS] at h1 h2
          simp only [walkStmt, hf, Bool.false_eq_true, if_false]
          rw [ihAF (b) lhs rhs _ (by omega) (by omega)]
          rw [ihEs (b) lhs _ (by omega) (by omega)]
          rw [ihEs (b) rhs _ (by omega) (by omega)]
        | exprStmt x =>
          simp only [sizeS] at h1 h2
          simp only [walkStmt, hf, Bool.false_eq_true, if_false]
          exact ihE b x st (by omega) (by omega)
        | deferStmt x =>
          simp only [sizeS] at h1 h2
          simp only [walkStmt, hf, Bool.false_eq_true, if_false]
          exact ihE b x st (by omega) (by omega)
        | block ss =>
          simp only [sizeS] at h1 h2
          simp only [walkStmt, hf, Bool.false_eq_true, if_false]
          exact ihSs b ss st (by omega) (by omega)
        | ifStmt ini cond body els =>
          simp only [sizeS] at h1 h2
          simp only [walkStmt, hf, Bool.false_eq_true, if_false]
          rw [ihOS b ini _ (by omega) (by omega)]
          rw [ihE b cond _ (by omega) (by omega)]
          rw [ihSs b body _ (by omega) (by omega)]
          rw [ihOS b els _ (by omega) (by omega)]
        | forStmt ini cond post body =>
          simp only [sizeS] at h1 h2
          simp only [walkStmt, hf, Bool.false_eq_true, if_false]
          rw [ihOS b ini _ (by omega) (by omega)]
          rw [ihOE b cond _ (by omega) (by omega)]
          rw [ihOS b post _ (by omega) (by omega)]
          rw [ihSs b body _ (by omega) (by omega)]
        | rangeStmt key value x body =>
          simp only [sizeS] at h1 h2
          simp only [walkStmt, hf, Bool.false_eq_true, if_false]
          rw [ihOE b key _ (by omega) (by omega)]
          rw [ihOE b value _ (by omega) (by omega)]
          rw [ihE b x _ (by omega) (by omega)]
          rw [ihSs b body _ (by omega) (by omega)]
        | returnStmt results =>
          simp only [sizeS] at h1 h2
          simp only [walkStmt, hf, Bool.false_eq_true, if_false]
          exact ihEs b results st (by omega) (by omega)
        | other =>
          simp only [walkStmt, hf, Bool.false_eq_true, if_false]
    · -- walkOptStmt
      intro f2 o st h1 h2
      obtain ⟨b, rfl⟩ : ∃ b, f2 = b + 1 := ⟨f2 - 1, by have := sizeOptS_pos o; omega⟩
      cases o with
      | none => simp only [walkOptStmt]
      | some s =>
        simp only [sizeOptS] at h1 h2
        simp only [walkOptStmt]
        exact ihS b s st (by omega) (by omega)
    · -- walkOptExpr
      intro f2 o st h1 h2
      obtain ⟨b, rfl⟩ : ∃ b, f2 = b + 1 := ⟨f2 - 1, by have := sizeOptE_pos o; omega⟩
      cases o with
      | none => simp only [walkOptExpr]
      | some e =>
        simp only [sizeOptE] at h1 h2
        simp only [walkOptExpr]
        exact ihE b e st (by omega) (by omega)
    · -- walkStmts
      intro f2 ss st h1 h2
      obtain ⟨b, rfl⟩ : ∃ b, f2 = b + 1 := ⟨f2 - 1, by have := sizeSs_pos ss; omega⟩
      cases ss with
      | nil => simp only [walkStmts]
      | cons s rest =>
        simp only [sizeSs] at h1 h2
        simp only [walkStmts]
        rw [ihS b s st (by omega) (by omega)]
        exact ihSs b rest _ (by omega) (by omega)
    · -- walkExprs
      intro f2 es st h1 h2
      obtain ⟨b, rfl⟩ : ∃ b, f2 = b + 1 := ⟨f2 - 1, by have := sizeEs_pos es; omega⟩
      cases es with
      | nil => simp only [walkExprs]
      | cons e rest =>
        simp only [sizeEs] at h1 h2
        simp only [walkExprs]
        rw [ihE b e st (by omega) (by omega)]
        exact ihEs b rest _ (by omega) (by omega)
    · -- walkExpr
      intro f2 e st h1 h2
      obtain ⟨b, rfl⟩ : ∃ b, f2 = b + 1 := ⟨f2 - 1, by have := sizeE_pos e; omega⟩
      by_cases hf : st.found = true
      · simp only [walkExpr, hf, if_true]
      · simp only [Bool.not_eq_true] at hf
        cases e with
        | call fn args =>
          cases fn with
          | selector sx ssel =>
            simp only [sizeE, sizeEs] at h1 h2
            simp only [walkExpr, hf, Bool.false_eq_true, if_false]
            by_cases hp : (visitCallNode r tr args.length (.selector sx ssel) st).2 = true
            · simp only [hp, if_true]
            · simp only [Bool.not_eq_true] at hp
              simp only [hp, Bool.false_eq_true, if_false]
              rw [ihE b (.selector sx ssel) _ (by simp only [sizeE]; omega)
                (by simp only [sizeE]; omega)]
              exact ihEs b args _ (by omega) (by omega)
          | ident fname fo =>
            simp only [sizeE, sizeEs] at h1 h2
            simp only [walkExpr, hf, Bool.false_eq_true, if_false]
            by_cases hp : (visitCallNode r tr args.length (.ident fname fo) st).2 = true
            · simp only [hp, if_true]
            · simp only [Bool.not_eq_true] at hp
              simp only [hp, Bool.false_eq_true, if_false]
              by_cases ha : argsHit (visitCallNode r tr args.length (.ident fname fo) st).1 fo
                  args 0 = true
              · simp only [ha, if_true]
              · simp only [Bool.not_eq_true] at ha
                simp only [ha, Bool.false_eq_true, if_false]
                rw [ihE b (.ident fname fo) _ (by simp only [sizeE]; omega)
                  (by simp only [sizeE]; omega)]
                exact ihEs b args _ (by omega) (by omega)
          | call cfn cargs =>
            simp only [sizeE, sizeEs] at h1 h2
            simp only [walkExpr, hf, Bool.false_eq_true, if_false]
            rw [ihE b (.call cfn cargs) _ (by simp only [sizeE]; omega)
              (by simp only [sizeE]; omega)]
            exact ihEs b args _ (by omega) (by omega)
          | funcLit p bd =>
            simp only [sizeE, sizeEs] at h1 h2
            simp only [walkExpr, hf, Bool.false_eq_true, if_false]
            rw [ihE b (.funcLit p bd) _ (by simp only [sizeE]; omega)
              (by simp only [sizeE]; omega)]
            exact ihEs b args _ (by omega) (by omega)
          | binop xx yy =>
            simp only [sizeE, sizeEs] at h1 h2
            simp only [walkExpr, hf, Bool.false_eq_true, if_false]
            rw [ihE b (.binop xx yy) _ (by simp only [sizeE]; omega)
              (by simp only [sizeE]; omega)]
            exact ihEs b args _ (by omega) (by omega)
          | unop xx =>
            simp only [sizeE, sizeEs] at h1 h2
            simp only [walkExpr, hf, Bool.false_eq_true, if_false]
            rw [ihE b (.unop xx) _ (by simp only [sizeE]; omega)
              (by simp only [sizeE]; omega)]
            exact ihEs b args _ (by omega) (by omega)
          | basic =>
            simp only [sizeE, sizeEs] at h1 h2
            simp only [walkExpr, hf, Bool.false_eq_true, if_false]
            rw [ihE b .basic _ (by simp only [sizeE]; omega)
              (by simp only [sizeE]; omega)]
            exact ihEs b args _ (by omega) (by omega)
        | selector x ssel =>
          simp only [sizeE] at h1 h2
          simp only [walkExpr, hf, Bool.false_eq_true, if_false]
          exact ihE b x st (by omega) (by omega)
        | funcLit params body =>
          simp only [sizeE] at h1 h2
          simp only [walkExpr, hf, Bool.false_eq_true, if_false]
          exact ihSs b body st (by omega) (by omega)
        | binop x y =>
          simp only [sizeE] at h1 h2
          simp only [walkExpr, hf, Bool.false_eq_true, if_false]
          rw [ihE b x st (by omega) (by omega)]
          exact ihE b y _ (by omega) (by omega)
        | unop x =>
          simp only [sizeE] at h1 h2
          simp only [walkExpr, hf, Bool.false_eq_true, if_false]
          exact ihE b x st (by omega) (by omega)
        | ident nm o => simp only [walkExpr, hf, Bool.false_eq_true, if_false]
        | basic => simp only [walkExpr, hf, Bool.false_eq_true, if_false]
    · -- assignFuncLits
      intro f2 lhs rhs st h1 h2
      obtain ⟨b, rfl⟩ : ∃ b, f2 = b + 1 := ⟨f2 - 1, by have := sizeEs_pos lhs; omega⟩
      cases lhs with
      | nil => simp only [assignFuncLits]
      | cons lh ls =>
        cases rhs with
        | nil => simp only [assignFuncLits]
        | cons rh rs =>
          simp only [sizeEs] at h1 h2
          cases rh with
          | funcLit params body =>
            simp only [assignFuncLits]
            have hb : sizeFs params + sizeSs body ≤ b := by
              have := sizeE_pos lh
              simp only [sizeE] at h1 h2
              omega
            have ha2 : sizeFs params + sizeSs body ≤ a := by
              have := sizeE_pos lh
              simp only [sizeE] at h1 h2
              omega
            by_cases he : body.isEmpty = true
            · simp only [he, if_true]
              exact ihAF b ls rs st (by simp only [sizeE] at h1 h2; omega)
                (by simp only [sizeE] at h1 h2; omega)
            · simp only [Bool.not_eq_true] at he
              simp only [he, Bool.false_eq_true, if_false]
              have hbound1 : sizeEs ls + sizeEs rs ≤ a := by
                simp only [sizeE] at h1
                have := sizeE_pos lh
                omega
              have hbound2 : sizeEs ls + sizeEs rs ≤ b := by
                simp only [sizeE] at h2
                have := sizeE_pos lh
                omega
              cases lh with
              | ident ln lo =>
                change assignFuncLits r tr a ls rs (procParams r tr a lo params body st) =
                  assignFuncLits r tr b ls rs (procParams r tr b lo params body st)
                rw [ihPP b lo params body st ha2 hb]
                exact ihAF b ls rs _ hbound1 hbound2
              | selector xx yy => exact ihAF b ls rs st hbound1 hbound2
              | call xx yy => exact ihAF b ls rs st hbound1 hbound2
              | funcLit xx yy => exact ihAF b ls rs st hbound1 hbound2
              | binop xx yy => exact ihAF b ls rs st hbound1 hbound2
              | unop xx => exact ihAF b ls rs st hbound1 hbound2
              | basic => exact ihAF b ls rs st hbound1 hbound2
          | ident xx yy =>
            simp only [assignFuncLits]
            have hl := sizeE_pos lh
            simp only [sizeE] at h1 h2
            exact ihAF b ls rs st (by omega) (by omega)
          | selector xx yy =>
            simp only [assignFuncLits]
            have hl := sizeE_pos lh
            simp only [sizeE] at h1 h2
            exact ihAF b ls rs st (by omega) (by omega)
          | call xx yy =>
            simp only [assignFuncLits]
            have hl := sizeE_pos lh
            simp only [sizeE] at h1 h2
            exact ihAF b ls rs st (by omega) (by omega)
          | binop xx yy =>
            simp only [assignFuncLits]
            have hl := sizeE_pos lh
            simp only [sizeE] at h1 h2
            exact ihAF b ls rs st (by omega) (by omega)
          | unop xx =>
            simp only [assignFuncLits]
            have hl := sizeE_pos lh
            simp only [sizeE] at h1 h2
            exact ihAF b ls rs st (by omega) (by omega)
          | basic =>
            simp only [assignFuncLits]
            have hl := sizeE_pos lh
            simp only [sizeE] at h1 h2
            exact ihAF b ls rs st (by omega) (by omega)
    · -- procParams
      intro f2 h fs body st h1 h2
      obtain ⟨b, rfl⟩ : ∃ b, f2 = b + 1 := ⟨f2 - 1, by have := sizeFs_pos fs; omega⟩
      cases fs with
      | nil => simp only [procParams]
      | cons f rest =>
        obtain ⟨fnames, ftype⟩ := f
        simp only [sizeFs] at h1 h2
        simp only [procParams]
        by_cases hc : containsType ftype r.expectedTypes = true
        · simp only [hc, if_true]
          rw [ihPN b h fnames 0 body st (by have := sizeFs_pos rest; omega)
            (by have := sizeFs_pos rest; omega)]
          exact ihPP b h rest body _ (by omega) (by omega)
        · simp only [Bool.not_eq_true] at hc
          simp only [hc, Bool.false_eq_true, if_false]
          exact ihPP b h rest body st (by omega) (by omega)
    · -- procNames
      intro f2 h ns j body st h1 h2
      obtain ⟨b, rfl⟩ : ∃ b, f2 = b + 1 := ⟨f2 - 1, by have := sizeSs_pos body; omega⟩
      cases ns with
      | nil => simp only [procNames]
      | cons p rest =>
        obtain ⟨pn, pObj⟩ := p
        simp only [List.length_cons] at h1 h2
        simp only [procNames]
        rw [ihSs b body (initState pObj) (by omega) (by omega)]
        exact ihPN b h rest (j + 1) body _ (by omega) (by omega)


/-- An identifier expression never contains the expected call. -/
theorem containsCallE_ident (r : CRule) (tr : TypeOracle) (o : ObjId) (f : Nat)
    (nm : String) (ob : ObjId) : containsCallE r tr o f (.ident nm ob) = false := by
  cases f <;> simp [containsCallE]

/-- A basic literal never contains the expected call. -/
theorem containsCallE_basic (r : CRule) (tr : TypeOracle) (o : ObjId) (f : Nat) :
    containsCallE r tr o f .basic = false := by
  cases f <;> simp [containsCallE]

/-- Case split on a boolean disjunction. -/
theorem orE {a b : Bool} (h : (a || b) = true) : a = true ∨ b = true := by
  cases a
  · right; simpa using h
  · left; rfl

/-- If the rule's expected call occurs (per the `containsCall` family) on
an object that is in the visitor's alias set, then walking that syntax
sets the `found` flag, whatever else the syntax contains. -/
theorem contains_found (r : CRule) (tr : TypeOracle) (o : ObjId) : ∀ cf : Nat,
    (∀ wf e st, sizeE e ≤ cf → sizeE e ≤ wf → containsCallE r tr o cf e = true →
      o ∈ st.identObjs → (walkExpr r tr wf e st).found = true) ∧
    (∀ wf es st, sizeEs es ≤ cf → sizeEs es ≤ wf → containsCallEs r tr o cf es = true →
      o ∈ st.identObjs → (walkExprs r tr wf es st).found = true) ∧
    (∀ wf s st, sizeS s ≤ cf → sizeS s ≤ wf → containsCallS r tr o cf s = true →
      o ∈ st.identObjs → (walkStmt r tr wf s st).found = true) ∧
    (∀ wf ss st, sizeSs ss ≤ cf → sizeSs ss ≤ wf → containsCallSs r tr o cf ss = true →
      o ∈ st.identObjs → (walkStmts r tr wf ss st).found = true) ∧
    (∀ wf os st, sizeOptS os ≤ cf → sizeOptS os ≤ wf → containsCallOS r tr o cf os = true →
      o ∈ st.identObjs → (walkOptStmt r tr wf os st).found = true) ∧
    (∀ wf oe st, sizeOptE oe ≤ cf → sizeOptE oe ≤ wf → containsCallOE r tr o cf oe = true →
      o ∈ st.identObjs → (walkOptExpr r tr wf oe st).found = true) := by
  intro cf
  induction cf with
  | zero =>
    refine ⟨?_, ?_, ?_, ?_, ?_, ?_⟩
    · intro wf e st h1 h2 hc hm; have := sizeE_pos e; exact absurd h1 (by omega)
    · intro wf es st h1 h2 hc hm; have := sizeEs_pos es; exact absurd h1 (by omega)
    · intro wf s st h1 h2 hc hm; have := sizeS_pos s; exact absurd h1 (by omega)
    · intro wf ss st h1 h2 hc hm; have := sizeSs_pos ss; exact absurd h1 (by omega)
    · intro wf os st h1 h2 hc hm; have := sizeOptS_pos os; exact absurd h1 (by omega)
    · intro wf oe st h1 h2 hc hm; have := sizeOptE_pos oe; exact absurd h1 (by omega)
  | succ c ih =>
    obtain ⟨ihE, ihEs, ihS, ihSs, ihOS, ihOE⟩ := ih
    refine ⟨?_, ?_, ?_, ?_, ?_, ?_⟩
    · -- expressions
      intro wf e st h1 h2 hc hm
      obtain ⟨w, rfl⟩ : ∃ w, wf = w + 1 := ⟨wf - 1, by have := sizeE_pos e; omega⟩
      obtain ⟨mS, mOS, mOE, mSs, mEs, mE, mAF, mPP, mPN⟩ := walk_mono r tr w
      by_cases hf : st.found = true
      · exact ((walk_mono r tr (w + 1)).2.2.2.2.2.1 e st).2.2 hf
      · simp only [Bool.not_eq_true] at hf
        cases e with
        | call fn args =>
          simp only [containsCallE] at hc
          rcases orE hc with hc2 | hcargs
          · rcases orE hc2 with hhit | hcfn
            · -- the call itself matches and its receiver is o
              have hh : callHit r tr args.length fn = some o := eq_of_beq hhit
              have hshape : (∃ nm ob, fn = Expr.ident nm ob) ∨
                  (∃ x sl, fn = Expr.selector x sl) := by
                cases fn <;> simp_all [callHit, names]
              rcases hshape with ⟨nm2, ob2, rfl⟩ | ⟨x2, sl2, rfl⟩
              · simp only [walkExpr, hf, Bool.false_eq_true, if_false]
                rw [visitCallNode_hit r tr args.length _ st o hh hm]
                simp
              · simp only [walkExpr, hf, Bool.false_eq_true, if_false]
                rw [visitCallNode_hit r tr args.length _ st o hh hm]
                simp
            · -- the expected call is inside the callee chain
              simp only [sizeE] at h1 h2
              cases fn with
              | ident nm2 ob2 => simp [containsCallE_ident] at hcfn
              | basic => simp [containsCallE_basic] at hcfn
              | selector sx ssel =>
                simp only [walkExpr, hf, Bool.false_eq_true, if_false]
                by_cases hp : (visitCallNode r tr args.length (.selector sx ssel) st).2 = true
                · simp only [hp, if_true]
                  exact visitCallNode_true_found _ _ _ _ _ hp
                · simp only [Bool.not_eq_true] at hp
                  simp only [hp, Bool.false_eq_true, if_false]
                  rw [visitCallNode_false_fst _ _ _ _ _ hp]
                  have hinner := ihE w (.selector sx ssel) st
                    (by simp only [sizeE] at h1 h2 ⊢; omega) (by simp only [sizeE] at h1 h2 ⊢; omega) hcfn hm
                  exact (mEs args _).2.2 hinner
              | call cfn cargs =>
                simp only [walkExpr, hf, Bool.false_eq_true, if_false]
                have hinner := ihE w (.call cfn cargs) st
                  (by simp only [sizeE] at h1 h2 ⊢; omega) (by simp only [sizeE] at h1 h2 ⊢; omega) hcfn hm
                exact (mEs args _).2.2 hinner
              | funcLit fp fb =>
                simp only [walkExpr, hf, Bool.false_eq_true, if_false]
                have hinner := ihE w (.funcLit fp fb) st
                  (by simp only [sizeE] at h1 h2 ⊢; omega) (by simp only [sizeE] at h1 h2 ⊢; omega) hcfn hm
                exact (mEs args _).2.2 hinner
              | binop bx bSee =>
                simp only [walkExpr, hf, Bool.false_eq_true, if_false]
                have hinner := ihE w (.binop bx bSee) st
                  (by simp only [sizeE] at h1 h2 ⊢; omega) (by simp only [sizeE] at h1 h2 ⊢; omega) hcfn hm
                exact (mEs args _).2.2 hinner
              | unop ux =>
                simp only [walkExpr, hf, Bool.false_eq_true, if_false]
                have hinner := ihE w (.unop ux) st
                  (by simp only [sizeE] at h1 h2 ⊢; omega) (by simp only [sizeE] at h1 h2 ⊢; omega) hcfn hm
                exact (mEs args _).2.2 hinner
          · -- the expected call is inside an argument
            simp only [sizeE] at h1 h2
            cases fn with
            | selector sx ssel =>
              simp only [walkExpr, hf, Bool.false_eq_true, if_false]
              by_cases hp : (visitCallNode r tr args.length (.selector sx ssel) st).2 = true
              · simp only [hp, if_true]
                exact visitCallNode_true_found _ _ _ _ _ hp
              · simp only [Bool.not_eq_true] at hp
                simp only [hp, Bool.false_eq_true, if_false]
                rw [visitCallNode_false_fst _ _ _ _ _ hp]
                exact ihEs w args _ (by omega) (by omega) hcargs
                  ((mE (.selector sx ssel) st).1 o hm)
            | ident nm2 ob2 =>
              simp only [walkExpr, hf, Bool.false_eq_true, if_false]
              by_cases hp : (visitCallNode r tr args.length (.ident nm2 ob2) st).2 = true
              · simp only [hp, if_true]
                exact visitCallNode_true_found _ _ _ _ _ hp
              · simp only [Bool.not_eq_true] at hp
                simp only [hp, Bool.false_eq_true, if_false]
                by_cases ha : argsHit (visitCallNode r tr args.length (.ident nm2 ob2) st).1
                    ob2 args 0 = true
                · simp only [ha, if_true]
                · simp only [Bool.not_eq_true] at ha
                  simp only [ha, Bool.false_eq_true, if_false]
                  rw [visitCallNode_false_fst _ _ _ _ _ hp]
                  exact ihEs w args _ (by omega) (by omega) hcargs
                    ((mE (.ident nm2 ob2) st).1 o hm)
            | call cfn cargs =>
              simp only [walkExpr, hf, Bool.false_eq_true, if_false]
              exact ihEs w args _ (by omega) (by omega) hcargs
                ((mE (.call cfn cargs) st).1 o hm)
            | funcLit fp fb =>
              simp only [walkExpr, hf, Bool.false_eq_true, if_false]
              exact ihEs w args _ (by omega) (by omega) hcargs
                ((mE (.funcLit fp fb) st).1 o hm)
            | binop bx bSee =>
              simp only [walkExpr, hf, Bool.false_eq_true, if_false]
              exact ihEs w args _ (by omega) (by omega) hcargs
                ((mE (.binop bx bSee) st).1 o hm)
            | unop ux =>
              simp only [walkExpr, hf, Bool.false_eq_true, if_false]
              exact ihEs w args _ (by omega) (by omega) hcargs
                ((mE (.unop ux) st).1 o hm)
            | basic =>
              simp only [walkExpr, hf, Bool.false_eq_true, if_false]
              exact ihEs w args _ (by omega) (by omega) hcargs ((mE .basic st).1 o hm)
        | selector x ssel =>
          simp only [containsCallE] at hc
          simp only [sizeE] at h1 h2
          simp only [walkExpr, hf, Bool.false_eq_true, if_false]
          exact ihE w x st (by omega) (by omega) hc hm
        | funcLit params body =>
          simp only [containsCallE] at hc
          simp only [sizeE] at h1 h2
          simp only [walkExpr, hf, Bool.false_eq_true, if_false]
          exact ihSs w body st (by omega) (by omega) hc hm
        | binop x y =>
          simp only [containsCallE] at hc
          simp only [sizeE] at h1 h2
          simp only [walkExpr, hf, Bool.false_eq_true, if_false]
          rcases orE hc with hcx | hcy
          · have hinner := ihE w x st (by omega) (by omega) hcx hm
            exact (mE y _).2.2 hinner
          · exact ihE w y _ (by omega) (by omega) hcy ((mE x st).1 o hm)
        | unop x =>
          simp only [containsCallE] at hc
          simp only [sizeE] at h1 h2
          simp only [walkExpr, hf, Bool.false_eq_true, if_false]
          exact ihE w x st (by omega) (by omega) hc hm
        | ident nm2 ob2 => simp [containsCallE] at hc
        | basic => simp [containsCallE] at hc
    · -- expression lists
      intro wf es st h1 h2 hc hm
      obtain ⟨w, rfl⟩ : ∃ w, wf = w + 1 := ⟨wf - 1, by have := sizeEs_pos es; omega⟩
      obtain ⟨mS, mOS, mOE, mSs, mEs, mE, mAF, mPP, mPN⟩ := walk_mono r tr w
      cases es with
      | nil => simp [containsCallEs] at hc
      | cons e rest =>
        simp only [containsCallEs] at hc
        simp only [sizeEs] at h1 h2
        simp only [walkExprs]
        rcases orE hc with hce | hcrest
        · have hinner := ihE w e st (by omega) (by omega) hce hm
          exact (mEs rest _).2.2 hinner
        · exact ihEs w rest _ (by omega) (by omega) hcrest ((mE e st).1 o hm)
    · -- statements
      intro wf s st h1 h2 hc hm
      obtain ⟨w, rfl⟩ : ∃ w, wf = w + 1 := ⟨wf - 1, by have := sizeS_pos s; omega⟩
      obtain ⟨mS, mOS, mOE, mSs, mEs, mE, mAF, mPP, mPN⟩ := walk_mono r tr w
      by_cases hf : st.found = true
      · exact ((walk_mono r tr (w + 1)).1 s st).2.2 hf
      · simp only [Bool.not_eq_true] at hf
        cases s with
        | assign lhs rhs =>
          simp only [containsCallS] at hc
          simp only [sizeS] at h1 h2
          simp only [walkStmt, hf, Bool.false_eq_true, if_false]
          have hm1 : o ∈ (assignFuncLits r tr w lhs rhs
              ⟨assignMatches lhs rhs st.identObjs, st.calledArgs, false⟩).identObjs :=
            (mAF lhs rhs _).1 o (assignMatches_mono lhs rhs st.identObjs o hm)
          rcases orE hc with hcl | hcr
          · have hinner := ihEs w lhs _ (by omega) (by omega) hcl hm1
            exact (mEs rhs _).2.2 hinner
          · exact ihEs w rhs _ (by omega) (by omega) hcr ((mEs lhs _).1 o hm1)
        | exprStmt x =>
          simp only [containsCallS] at hc
          simp only [sizeS] at h1 h2
          simp only [walkStmt, hf, Bool.false_eq_true, if_false]
          exact ihE w x st (by omega) (by omega) hc hm
        | deferStmt x =>
          simp only [containsCallS] at hc
          simp only [sizeS] at h1 h2
          simp only [walkStmt, hf, Bool.false_eq_true, if_false]
          exact ihE w x st (by omega) (by omega) hc hm
        | block ss =>
          simp only [containsCallS] at hc
          simp only [sizeS] at h1 h2
          simp only [walkStmt, hf, Bool.false_eq_true, if_false]
          exact ihSs w ss st (by omega) (by omega) hc hm
        | ifStmt ini cond body els =>
          simp only [containsCallS] at hc
          simp only [sizeS] at h1 h2
          simp only [walkStmt, hf, Bool.false_eq_true, if_false]
          rcases orE hc with hc3 | hcels
          · rcases orE hc3 with hc4 | hcbody
            · rcases orE hc4 with hcini | hccond
              · have hinner := ihOS w ini st (by omega) (by omega) hcini hm
                exact (mOS els _).2.2 ((mSs body _).2.2 ((mE cond _).2.2 hinner))
              · have hinner := ihE w cond _ (by omega) (by omega) hccond
                  ((mOS ini st).1 o hm)
                exact (mOS els _).2.2 ((mSs body _).2.2 hinner)
            · have hinner := ihSs w body _ (by omega) (by omega) hcbody
                ((mE cond _).1 o ((mOS ini st).1 o hm))
              exact (mOS els _).2.2 hinner
          · exact ihOS w els _ (by omega) (by omega) hcels
              ((mSs body _).1 o ((mE cond _).1 o ((mOS ini st).1 o hm)))
        | forStmt ini cond post body =>
          simp only [containsCallS] at hc
          simp only [sizeS] at h1 h2
          simp only [walkStmt, hf, Bool.false_eq_true, if_false]
          rcases orE hc with hc3 | hcbody
          · rcases orE hc3 with hc4 | hcpost
            · rcases orE hc4 with hcini | hccond
              · have hinner := ihOS w ini st (by omega) (by omega) hcini hm
                exact (mSs body _).2.2 ((mOS post _).2.2 ((mOE cond _).2.2 hinner))
              · have hinner := ihOE w cond _ (by omega) (by omega) hccond
                  ((mOS ini st).1 o hm)
                exact (mSs body _).2.2 ((mOS post _).2.2 hinner)
            · have hinner := ihOS w post _ (by omega) (by omega) hcpost
                ((mOE cond _).1 o ((mOS ini st).1 o hm))
              exact (mSs body _).2.2 hinner
          · exact ihSs w body _ (by omega) (by omega) hcbody
              ((mOS post _).1 o ((mOE cond _).1 o ((mOS ini st).1 o hm)))
        | rangeStmt key value x body =>
          simp only [containsCallS] at hc
          simp only [sizeS] at h1 h2
          simp only [walkStmt, hf, Bool.false_eq_true, if_false]
          rcases orE hc with hc3 | hcbody
          · rcases orE hc3 with hc4 | hcx
            · rcases orE hc4 with hckey | hcvalue
              · have hinner := ihOE w key st (by omega) (by omega) hckey hm
                exact (mSs body _).2.2 ((mE x _).2.2 ((mOE value _).2.2 hinner))
              · have hinner := ihOE w value _ (by omega) (by omega) hcvalue
                  ((mOE key st).1 o hm)
                exact (mSs body _).2.2 ((mE x _).2.2 hinner)
            · have hinner := ihE w x _ (by omega) (by omega) hcx
                ((mOE value _).1 o ((mOE key st).1 o hm))
              exact (mSs body _).2.2 hinner
          · exact ihSs w body _ (by omega) (by omega) hcbody
              ((mE x _).1 o ((mOE value _).1 o ((mOE key st).1 o hm)))
        | returnStmt results =>
          simp only [containsCallS] at hc
          simp only [sizeS] at h1 h2
          simp only [walkStmt, hf, Bool.false_eq_true, if_false]
          exact ihEs w results st (by omega) (by omega) hc hm
        | other => simp [containsCallS] at hc
    · -- statement lists
      intro wf ss st h1 h2 hc hm
      obtain ⟨w, rfl⟩ : ∃ w, wf = w + 1 := ⟨wf - 1, by have := sizeSs_pos ss; omega⟩
      obtain ⟨mS, mOS, mOE, mSs, mEs, mE, mAF, mPP, mPN⟩ := walk_mono r tr w
      cases ss with
      | nil => simp [containsCallSs] at hc
      | cons s rest =>
        simp only [containsCallSs] at hc
        simp only [sizeSs] at h1 h2
        simp only [walkStmts]
        rcases orE hc with hcs | hcrest
        · have hinner := ihS w s st (by omega) (by omega) hcs hm
          exact (mSs rest _).2.2 hinner
        · exact ihSs w rest _ (by omega) (by omega) hcrest ((mS s st).1 o hm)
    · -- optional statements
      intro wf os st h1 h2 hc hm
      obtain ⟨w, rfl⟩ : ∃ w, wf = w + 1 := ⟨wf - 1, by have := sizeOptS_pos os; omega⟩
      cases os with
      | none => simp [containsCallOS] at hc
      | some s =>
        simp only [containsCallOS] at hc
        simp only [sizeOptS] at h1 h2
        simp only [walkOptStmt]
        exact ihS w s st (by omega) (by omega) hc hm
    · -- optional expressions
      intro wf oe st h1 h2 hc hm
      obtain ⟨w, rfl⟩ : ∃ w, wf = w + 1 := ⟨wf - 1, by have := sizeOptE_pos oe; omega⟩
      cases oe with
      | none => simp [containsCallOE] at hc
      | some e =>
        simp only [containsCallOE] at hc
        simp only [sizeOptE] at h1 h2
        simp only [walkOptExpr]
        exact ihE w e st (by omega) (by omega) hc hm


/-- If the expected call appears in the statement suffix (per `suffixSat`)
on any alias object already present in the visitor state, the walk of
the suffix finds it. -/
theorem suffixSat_walkStmts (r : CRule) (tr : TypeOracle) :
    ∀ (stmts : List Stmt) (objs : List ObjId) (st : VState) (fuel : Nat),
    sizeSs stmts ≤ fuel → suffixSat r tr objs stmts = true →
    (∀ o, o ∈ objs → o ∈ st.identObjs) →
    (walkStmts r tr fuel stmts st).found = true := by
  intro stmts
  induction stmts with
  | nil => intro objs st fuel hb hsat hmem; simp [suffixSat] at hsat
  | cons s rest ih =>
    intro objs st fuel hb hsat hmem
    obtain ⟨f, rfl⟩ : ∃ f, fuel = f + 1 := ⟨fuel - 1, by have := sizeSs_pos (s :: rest); omega⟩
    simp only [sizeSs] at hb
    have hsz : sizeS s ≤ f := by have := sizeSs_pos rest; omega
    rw [suffixSat] at hsat
    obtain ⟨mS, mOS, mOE, mSs, mEs, mE, mAF, mPP, mPN⟩ := walk_mono r tr f
    rcases orE hsat with hany | htail
    · obtain ⟨o, ho, hcall⟩ := List.any_eq_true.mp hany
      have hinner := (contains_found r tr o (sizeS s)).2.2.1 f s st (le_refl _) hsz
        hcall (hmem o ho)
      simp only [walkStmts]
      exact (mSs rest _).2.2 hinner
    · by_cases hfd : st.found = true
      · exact ((walk_mono r tr (f + 1)).2.2.2.1 (s :: rest) st).2.2 hfd
      · simp only [Bool.not_eq_true] at hfd
        simp only [walkStmts]
        refine ih (aliasStep s objs) (walkStmt r tr f s st) f (by omega) htail ?_
        intro o ho
        cases s with
        | assign lhs rhs =>
          obtain ⟨f2, rfl⟩ : ∃ f2, f = f2 + 1 := ⟨f - 1, by have := sizeS_pos (Stmt.assign lhs rhs); omega⟩
          obtain ⟨mS2, mOS2, mOE2, mSs2, mEs2, mE2, mAF2, mPP2, mPN2⟩ := walk_mono r tr f2
          simp only [aliasStep] at ho
          have h1 : o ∈ assignMatches lhs rhs st.identObjs :=
            assignMatches_subset lhs rhs objs st.identObjs hmem o ho
          simp only [walkStmt, hfd, Bool.false_eq_true, if_false]
          exact (mEs2 rhs _).1 o ((mEs2 lhs _).1 o ((mAF2 lhs rhs _).1 o h1))
        | exprStmt x => exact (mS _ st).1 o (hmem o (by simpa [aliasStep] using ho))
        | deferStmt x => exact (mS _ st).1 o (hmem o (by simpa [aliasStep] using ho))
        | block ss => exact (mS _ st).1 o (hmem o (by simpa [aliasStep] using ho))
        | ifStmt a b c d => exact (mS _ st).1 o (hmem o (by simpa [aliasStep] using ho))
        | forStmt a b c d => exact (mS _ st).1 o (hmem o (by simpa [aliasStep] using ho))
        | rangeStmt a b c d => exact (mS _ st).1 o (hmem o (by simpa [aliasStep] using ho))
        | returnStmt a => exact (mS _ st).1 o (hmem o (by simpa [aliasStep] using ho))
        | other => exact (mS _ st).1 o (hmem o (by simpa [aliasStep] using ho))

/-- The central soundness fact behind claims C1 and C2: if the expected
call appears in the statement suffix on the tracked identifier or on an
identifier reachable from it by re-assignment chains, `visit` returns
true. -/
theorem suffixSat_visit (r : CRule) (tr : TypeOracle) (obj : ObjId) (stmts : List Stmt)
    (h : suffixSat r tr [obj] stmts = true) : visit r tr obj stmts = true := by
  unfold visit
  refine suffixSat_walkStmts r tr stmts [obj] (initState obj) (sizeSs stmts)
    (le_refl _) h ?_
  intro o ho
  simp only [List.mem_singleton] at ho
  subst ho
  simp [initState]

/-- Membership in the reports of the final loop of `checkRule`: a report
is emitted exactly for the active rules whose tracker run fails. -/
theorem reportRules_mem (tr : TypeOracle) (obj : ObjId) (nm : String) (stmts : List Stmt) :
    ∀ (active : List CRule) (rep : Report),
    rep ∈ reportRules active tr obj nm stmts ↔
      ∃ ru, ru ∈ active ∧ visit ru tr obj stmts = false ∧ rep = reportD ru nm := by
  intro active
  induction active with
  | nil => intro rep; simp [reportRules]
  | cons ru rest ih =>
    intro rep
    by_cases hv : visit ru tr obj stmts = true
    · simp only [reportRules, hv, if_true]
      rw [ih rep]
      constructor
      · rintro ⟨ru2, h1, h2, h3⟩; exact ⟨ru2, List.mem_cons_of_mem _ h1, h2, h3⟩
      · rintro ⟨ru2, h1, h2, h3⟩
        rcases List.mem_cons.mp h1 with rfl | h1
        · rw [hv] at h2; cases h2
        · exact ⟨ru2, h1, h2, h3⟩
    · simp only [Bool.not_eq_true] at hv
      simp only [reportRules, hv, Bool.false_eq_true, if_false, List.mem_cons]
      constructor
      · rintro (rfl | hmem)
        · exact ⟨ru, Or.inl rfl, hv, rfl⟩
        · obtain ⟨ru2, h1, h2, h3⟩ := (ih rep).mp hmem
          exact ⟨ru2, Or.inr h1, h2, h3⟩
      · rintro ⟨ru2, h1, h2, h3⟩
        rcases h1 with rfl | h1
        · exact Or.inl h3
        · exact Or.inr ((ih rep).mpr ⟨ru2, h1, h2, h3⟩)


/-! ## Claim theorems -/

/-- The concrete compiled rule is exactly what `Rule.validate` produces for
the `sql-rows-err` rule. -/
theorem ruleSQL_validate : ruleSQL.validate = .ok crSQL := by rfl

/-- C8: the Alias Set is monotone over a single call-site walk: it is
seeded with exactly the tracked identifier's binding, and no step of the
walk of the statement suffix ever removes a binding (including
reassignment of an aliased name), whatever statements the suffix
contains. -/
theorem c8_alias_set_monotone (r : CRule) (tr : TypeOracle) (a : ObjId) :
    (initState a).identObjs = [a] ∧
    ∀ (fuel : Nat) (stmts : List Stmt) (st : VState) (o : ObjId),
      o ∈ st.identObjs → o ∈ (walkStmts r tr fuel stmts st).identObjs :=
  ⟨rfl, fun fuel stmts st o h => ((walk_mono r tr fuel).2.2.2.1 stmts st).1 o h⟩

/-- Witness for C8: a binding survives the walk of a suffix that
reassigns the aliased name to an unrelated value (`rows = db.Query(...)`
does not remove `rows` from the alias set). -/
theorem c8_witness :
    2 ∈ (walkStmts crSQL trSQL 9 [.assign [.ident "rows" 2] [.basic]]
      ⟨[2], [], false⟩).identObjs ∧ (initState 2).identObjs = [2] :=
  ⟨(c8_alias_set_monotone crSQL trSQL 2).2 9 [.assign [.ident "rows" 2] [.basic]]
      ⟨[2], [], false⟩ 2 (by decide),
   (c8_alias_set_monotone crSQL trSQL 2).1⟩

/-- C6 (code bug): the statement-suffix locator returns the empty suffix
when the stack has no enclosing block, as specified — but `checkRule` then
evaluates `stmts[0]` on that empty suffix, an index-out-of-range panic
(modelled as `Except.error`), instead of treating it as "statement context
unavailable": analysis of the unit aborts. The input is a matched call
with no enclosing block, as for a package-scope
`var rows, _ = db.Query(...)`. -/
theorem c6_empty_suffix_panics :
    restOfBlock stackNoBlock = [] ∧
    crSQL.matchesResults sigSQL = true ∧
    checkRule [crSQL] crSQL trSQL sigSQL stackNoBlock =
      .error "panic: runtime error: index out of range" :=
  ⟨rfl, by decide, rfl⟩

/-- C9 (counterexample): the current `report` does not fall back to the
process-wide default category. A rule with an empty category yields a
diagnostic whose category is empty, not the default `uncalled` from the
embedded configuration. -/
theorem c9_no_default_category_fallback :
    checkRule [crNoCat] crNoCat trSQL sigSQL stackShort = .ok [reportD crNoCat "rows"] ∧
    (reportD crNoCat "rows").category = "" ∧
    defaultCategory = "uncalled" ∧
    (reportD crNoCat "rows").category ≠ defaultCategory :=
  ⟨rfl, rfl, rfl, by decide⟩

/-- C9 (amended): every diagnostic carries the rule's configured category
verbatim — empty when the rule specifies none, with no process-wide
default fallback — together with the rule-derived message. -/
theorem c9_category_verbatim (r : CRule) (nm : String) :
    (reportD r nm).category = r.category ∧
    (reportD r nm).message = r.fmtName nm ++ " must be called" :=
  ⟨rfl, rfl⟩


/-- The positional loop of `matchesResults`, characterised positionally
for lists of equal length. -/
theorem matchResultsList_iff (pkgs : List String) :
    ∀ (rs : List Result) (ts : List (Option String)), ts.length = rs.length →
    (matchResultsList pkgs rs ts = true ↔
      ∀ i (hi : i < rs.length) (ht : i < ts.length),
        (rs.get ⟨i, hi⟩).rmatch pkgs (ts.get ⟨i, ht⟩) = true) := by
  intro rs
  induction rs with
  | nil =>
    intro ts hlen
    constructor
    · intro _ i hi ht; exact absurd hi (by simp)
    · intro _; rfl
  | cons res rest ih =>
    intro ts hlen
    cases ts with
    | nil => simp at hlen
    | cons t ts2 =>
      simp only [List.length_cons, Nat.succ.injEq] at hlen
      simp only [matchResultsList, Bool.and_eq_true]
      rw [ih ts2 hlen]
      constructor
      · rintro ⟨hhead, htail⟩ i hi ht
        cases i with
        | zero => exact hhead
        | succ i2 =>
          exact htail i2 (by simpa using hi) (by simpa using ht)
      · intro hall
        refine ⟨hall 0 (by simp) (by simp), ?_⟩
        intro i2 hi ht
        exact hall (i2 + 1) (by simpa using hi) (by simpa using ht)

/-- C5: the signature matcher is a pure function returning true exactly
when the observed result tuple has the same length as the rule's
configured results and every position's compiled matcher accepts the
corresponding observed type — positional, with no permutation search. -/
theorem c5_signature_matcher (r : CRule) (ts : List (Option String)) :
    r.matchesResults ts = true ↔
      (ts.length = r.results.length ∧
        ∀ i (hi : i < r.results.length) (ht : i < ts.length),
          (r.results.get ⟨i, hi⟩).rmatch r.packages (ts.get ⟨i, ht⟩) = true) := by
  unfold CRule.matchesResults
  by_cases hlen : ts.length = r.results.length
  · have hb : (ts.length != r.results.length) = false := by simp [hlen]
    simp only [hb, Bool.false_eq_true, if_false]
    rw [matchResultsList_iff r.packages r.results ts hlen]
    constructor
    · intro h; exact ⟨hlen, h⟩
    · intro h; exact h.2
  · have : (ts.length != r.results.length) = true := by simpa using hlen
    simp only [this, if_true]
    constructor
    · intro h; cases h
    · intro h; exact absurd h.1 hlen

/-- Witness for C5: applying the matcher characterisation to the
`sql-rows-err` rule and the observed tuple `(*sql.Rows, error)`. -/
theorem c5_witness : sigSQL.length = crSQL.results.length :=
  ((c5_signature_matcher crSQL sigSQL).mp (by decide)).1

/-- `Result.fqName` for a non-wildcard result, in the shape the
specification describes the per-package name set. -/
theorem fqName_eq (res : Result) (p : String) (hne : (res.type == anyType) = false) :
    res.fqName p =
      if strHasPrefix res.type "." then
        (if res.pointer then "*" else "") ++ p ++ res.type
      else (if res.pointer then "*" else "") ++ res.type := by
  unfold Result.fqName
  simp only [hne, Bool.false_eq_true, if_false]

/-- C7: a compiled result matcher accepts every semantic type when the
result is the wildcard; otherwise it accepts exactly the types whose
canonical string is in the precomputed per-package name set —
`pointer-marker ++ package ++ type` for dotted-relative type names and
`pointer-marker ++ type` for absolute ones. -/
theorem c7_result_matcher (res : Result) (pkgs : List String) (t : String) :
    (res.type = anyType → res.rmatch pkgs (some t) = true) ∧
    (res.type ≠ anyType →
      (res.rmatch pkgs (some t) = true ↔
        ∃ p, p ∈ pkgs ∧
          t = (if strHasPrefix res.type "." then
                 (if res.pointer then "*" else "") ++ p ++ res.type
               else
                 (if res.pointer then "*" else "") ++ res.type))) := by
  constructor
  · intro hany
    have : (res.type == anyType) = true := by simpa using hany
    simp [Result.rmatch, this]
  · intro hnot
    have hne : (res.type == anyType) = false := by simpa using hnot
    simp only [Result.rmatch, hne, Bool.false_eq_true, if_false]
    rw [List.elem_iff]
    unfold Result.resultTypes
    rw [List.mem_map]
    constructor
    · rintro ⟨p, hp, hfq⟩
      refine ⟨p, hp, ?_⟩
      rw [← hfq, fqName_eq res p hne]
    · rintro ⟨p, hp, ht⟩
      refine ⟨p, hp, ?_⟩
      rw [fqName_eq res p hne]
      exact ht.symm

/-- Witness for C7: the `.Rows` pointer result matcher of the sql rule
accepts `*database/sql.Rows` resolved against the `database/sql`
package. -/
theorem c7_witness :
    Result.rmatch ⟨".Rows", true, some ⟨".Err", []⟩⟩ ["database/sql"]
      (some "*database/sql.Rows") = true :=
  ((c7_result_matcher ⟨".Rows", true, some ⟨".Err", []⟩⟩ ["database/sql"]
      "*database/sql.Rows").2 (by decide)).mpr
    ⟨"database/sql", by simp, by decide⟩


/-- `expectCount` over a cons, by the head's `Expect`. -/
theorem expectCount_cons (res : Result) (rest : List Result) :
    expectCount (res :: rest) =
      (if res.expect.isSome = true then 1 else 0) + expectCount rest := by
  by_cases h : res.expect.isSome = true <;> simp [expectCount, h] <;> omega

/-- `findExpects` errors exactly when it would see a second
`Expect`-bearing result. -/
theorem findExpects_error_iff : ∀ (rs : List Result) (i : Nat) (acc : Option (Nat × Result)),
    (∃ m, findExpects rs i acc = .error m) ↔
      ((acc.isSome = true ∧ 1 ≤ expectCount rs) ∨ 2 ≤ expectCount rs) := by
  intro rs
  induction rs with
  | nil => intro i acc; simp [findExpects, expectCount]
  | cons res rest ih =>
    intro i acc
    cases hres : res.expect with
    | none =>
      have hc : expectCount (res :: rest) = expectCount rest := by
        simp [expectCount_cons, hres]
      simp only [findExpects, hres]
      rw [ih (i + 1) acc, hc]
    | some e =>
      have hc : expectCount (res :: rest) = expectCount rest + 1 := by
        simp [expectCount_cons, hres]; omega
      cases acc with
      | some p =>
        simp only [findExpects, hres]
        rw [hc]
        constructor
        · intro _; exact Or.inl ⟨rfl, by omega⟩
        · intro _; exact ⟨_, rfl⟩
      | none =>
        simp only [findExpects, hres]
        rw [ih (i + 1) (some (i, res)), hc]
        constructor
        · rintro (⟨_, hcnt⟩ | hcnt)
          · exact Or.inr (by omega)
          · exact Or.inr (by omega)
        · rintro (⟨hfalse, _⟩ | hcnt)
          · cases hfalse
          · exact Or.inl ⟨rfl, by omega⟩

/-- With no `Expect`-bearing result left, `findExpects` keeps its
accumulator. -/
theorem findExpects_keep : ∀ (rs : List Result) (i : Nat) (acc : Option (Nat × Result)),
    expectCount rs = 0 → findExpects rs i acc = .ok acc := by
  intro rs
  induction rs with
  | nil => intro i acc _; rfl
  | cons res rest ih =>
    intro i acc hc
    cases hres : res.expect with
    | none =>
      simp only [findExpects, hres]
      refine ih (i + 1) acc ?_
      rw [expectCount_cons, hres] at hc
      simpa using hc
    | some e =>
      rw [expectCount_cons, hres] at hc
      simp at hc

/-- With exactly one `Expect`-bearing result, `findExpects` returns it. -/
theorem findExpects_single : ∀ (rs : List Result) (i : Nat), expectCount rs = 1 →
    ∃ idx res, findExpects rs i none = .ok (some (idx, res)) ∧ res ∈ rs ∧
      res.expect.isSome = true := by
  intro rs
  induction rs with
  | nil => intro i hc; simp [expectCount] at hc
  | cons res rest ih =>
    intro i hc
    cases hres : res.expect with
    | none =>
      rw [expectCount_cons, hres] at hc
      simp only [Option.isSome_none] at hc
      obtain ⟨idx, res2, heq, hmem, hsome⟩ := ih (i + 1) (by simpa using hc)
      exact ⟨idx, res2, by simp only [findExpects, hres]; exact heq,
        List.mem_cons_of_mem _ hmem, hsome⟩
    | some e =>
      rw [expectCount_cons, hres] at hc
      simp only [Option.isSome_some, if_true] at hc
      have hz : expectCount rest = 0 := by omega
      refine ⟨i, res, ?_, List.mem_cons_self _ _, by simp [hres]⟩
      simp only [findExpects, hres]
      exact findExpects_keep rest (i + 1) (some (i, res)) hz

/-- `Result.build` errors exactly for an `Expect`-bearing wildcard result
compiled against a non-empty package list. -/
theorem build_error_iff : ∀ (res : Result) (pkgs : List String),
    (∃ m, res.build pkgs = .error m) ↔
      (res.expect.isSome = true ∧ res.type = anyType ∧ pkgs ≠ []) := by
  intro res pkgs
  induction pkgs with
  | nil => simp [Result.build]
  | cons p ps ih =>
    cases hres : res.expect with
    | none =>
      simp only [Result.build, hres]
      rw [ih]
      simp [hres]
    | some e =>
      simp only [Result.build, hres]
      by_cases hany : (res.type == anyType) = true
      · simp only [hany, if_true]
        constructor
        · intro _
          exact ⟨by simp [hres], by simpa using hany, by simp⟩
        · intro _; exact ⟨_, rfl⟩
      · simp only [Bool.not_eq_true] at hany
        simp only [hany, Bool.false_eq_true, if_false]
        cases hb : res.build ps with
        | error m =>
          have := ih.mp ⟨m, hb⟩
          have : res.type = anyType := this.2.1
          have : (res.type == anyType) = true := by simpa using this
          rw [this] at hany
          cases hany
        | ok pr =>
          obtain ⟨cs, ts⟩ := pr
          simp only []
          constructor
          · rintro ⟨m, hm⟩; cases hm
          · rintro ⟨_, hty, _⟩
            have : (res.type == anyType) = true := by simpa using hty
            rw [this] at hany
            cases hany

/-- `buildAll` errors exactly when some `Expect`-bearing result is the
wildcard (with a non-empty package list). -/
theorem buildAll_error_iff : ∀ (rs : List Result) (pkgs : List String),
    (∃ m, buildAll rs pkgs = .error m) ↔
      ∃ res, res ∈ rs ∧ res.expect.isSome = true ∧ res.type = anyType ∧ pkgs ≠ [] := by
  intro rs
  induction rs with
  | nil => intro pkgs; simp [buildAll]
  | cons res rest ih =>
    intro pkgs
    simp only [buildAll]
    cases hb : res.build pkgs with
    | error m =>
      obtain ⟨hsome, hany, hne⟩ := (build_error_iff res pkgs).mp ⟨m, hb⟩
      constructor
      · intro _; exact ⟨res, List.mem_cons_self _ _, hsome, hany, hne⟩
      · intro _; exact ⟨m, rfl⟩
    | ok pr =>
      obtain ⟨cs, ts⟩ := pr
      cases hba : buildAll rest pkgs with
      | error m2 =>
        obtain ⟨res2, hmem, h2, h3, h4⟩ := (ih pkgs).mp ⟨m2, hba⟩
        constructor
        · intro _; exact ⟨res2, List.mem_cons_of_mem _ hmem, h2, h3, h4⟩
        · intro _; exact ⟨m2, rfl⟩
      | ok pr2 =>
        obtain ⟨cs2, ts2⟩ := pr2
        simp only []
        constructor
        · rintro ⟨m, hm⟩; cases hm
        · rintro ⟨res2, hmem, h2, h3, h4⟩
          rcases List.mem_cons.mp hmem with rfl | hmem2
          · obtain ⟨m, hm⟩ := (build_error_iff res2 pkgs).mpr ⟨h2, h3, h4⟩
            rw [hm] at hb
            cases hb
          · obtain ⟨m, hm⟩ := (ih pkgs).mpr ⟨res2, hmem2, h2, h3, h4⟩
            rw [hm] at hba
            cases hba

/-- C4: rule validation returns an error exactly when the rule name fails
the identifier pattern, the package or result list is empty, the number of
`Expect`-bearing results differs from one, or the `Expect`-bearing result
uses the wildcard type. -/
theorem c4_rule_validation (r : Rule) :
    (∃ m, r.validate = .error m) ↔
      (nameOk r.name = false ∨ r.packages = [] ∨ r.results = [] ∨
        expectCount r.results ≠ 1 ∨
        ∃ res, res ∈ r.results ∧ res.expect.isSome = true ∧ res.type = anyType) := by
  unfold Rule.validate
  by_cases hname : nameOk r.name = true
  · have hcond : (!nameOk r.name) = false := by simp [hname]
    simp only [hcond, Bool.false_eq_true, if_false]
    by_cases hpk : r.packages = []
    · have : r.packages.isEmpty = true := by simp [hpk]
      simp only [this, if_true]
      constructor
      · intro _; exact Or.inr (Or.inl hpk)
      · intro _; exact ⟨_, rfl⟩
    · have hpkE : r.packages.isEmpty = false := by
        cases hp : r.packages with
        | nil => exact absurd hp hpk
        | cons a b => rfl
      simp only [hpkE, Bool.false_eq_true, if_false]
      by_cases hrs : r.results = []
      · have : r.results.isEmpty = true := by simp [hrs]
        simp only [this, if_true]
        constructor
        · intro _; exact Or.inr (Or.inr (Or.inl hrs))
        · intro _; exact ⟨_, rfl⟩
      · have hrsE : r.results.isEmpty = false := by
          cases hp : r.results with
          | nil => exact absurd hp hrs
          | cons a b => rfl
        simp only [hrsE, Bool.false_eq_true, if_false]
        by_cases h0 : expectCount r.results = 0
        · rw [findExpects_keep r.results 0 none h0]
          constructor
          · intro _; exact Or.inr (Or.inr (Or.inr (Or.inl (by omega))))
          · intro _; exact ⟨_, rfl⟩
        · by_cases h1 : expectCount r.results = 1
          · obtain ⟨idx, res, heq, hmem, hsome⟩ := findExpects_single r.results 0 h1
            rw [heq]
            cases hb : buildAll r.results r.packages with
            | error m =>
              obtain ⟨res2, hm2, hs2, ha2, _⟩ := (buildAll_error_iff r.results r.packages).mp
                ⟨m, hb⟩
              constructor
              · intro _
                exact Or.inr (Or.inr (Or.inr (Or.inr ⟨res2, hm2, hs2, ha2⟩)))
              · intro _; exact ⟨m, rfl⟩
            | ok pr =>
              obtain ⟨cs, ts⟩ := pr
              simp only []
              constructor
              · rintro ⟨m, hm⟩; cases hm
              · rintro (h | h | h | h | ⟨res2, hm2, hs2, ha2⟩)
                · rw [h] at hname; cases hname
                · exact absurd h hpk
                · exact absurd h hrs
                · exact absurd h1 h
                · obtain ⟨m, hm⟩ := (buildAll_error_iff r.results r.packages).mpr
                    ⟨res2, hm2, hs2, ha2, hpk⟩
                  rw [hm] at hb
                  cases hb
          · have h2 : 2 ≤ expectCount r.results := by omega
            obtain ⟨m, hm⟩ := (findExpects_error_iff r.results 0 none).mpr (Or.inr h2)
            rw [hm]
            constructor
            · intro _; exact Or.inr (Or.inr (Or.inr (Or.inl h1)))
            · intro _; exact ⟨m, rfl⟩
  · simp only [Bool.not_eq_true] at hname
    have hcond : (!nameOk r.name) = true := by simp [hname]
    simp only [hcond, if_true]
    constructor
    · intro _; exact Or.inl hname
    · intro _; exact ⟨_, rfl⟩

/-- Witness for C4: the rule with two `Expect`-bearing results is rejected
before any analysis runs. -/
theorem c4_witness : ∃ m, ruleTwoExpect.validate = .error m :=
  (c4_rule_validation ruleTwoExpect).mpr
    (Or.inr (Or.inr (Or.inr (Or.inl (by decide)))))


/-- `Config.validate`, with its `let`s unfolded. -/
theorem Config.validate_eq (c : Config) :
    c.validate =
      match validateRules c.rules with
      | .error m => .error m
      | .ok _ =>
        match applyDisabled (c.rules.map Rule.name) c.disabled
            (if c.disableAll then [] else c.rules.map Rule.name) with
        | .error m => .error m
        | .ok act1 =>
          match applyEnabled (c.rules.map Rule.name) c.disabled c.enabled act1 with
          | .error m => .error m
          | .ok act2 => .ok act2 := rfl

/-- Membership in `removeName`. -/
theorem removeName_mem (nm x : String) (l : List String) :
    x ∈ removeName nm l ↔ (x ∈ l ∧ x ≠ nm) := by
  simp [removeName, List.mem_filter]

/-- Membership in `addName`. -/
theorem addName_mem (nm x : String) (l : List String) :
    x ∈ addName nm l ↔ (x = nm ∨ x ∈ l) := by
  unfold addName
  by_cases hm : nm ∈ l
  · simp only [if_pos hm]
    constructor
    · exact Or.inr
    · rintro (rfl | hx)
      · exact hm
      · exact hx
  · simp only [if_neg hm]
    exact List.mem_cons

/-- The `Disabled` loop errors exactly on an unknown name. -/
theorem applyDisabled_error_iff (rn : List String) : ∀ (ds active : List String),
    (∃ m, applyDisabled rn ds active = .error m) ↔ ∃ d, d ∈ ds ∧ d ∉ rn := by
  intro ds
  induction ds with
  | nil => intro active; simp [applyDisabled]
  | cons d ds ih =>
    intro active
    by_cases hd : d ∈ rn
    · simp only [applyDisabled, if_pos hd]
      rw [ih (removeName d active)]
      constructor
      · rintro ⟨x, hx, hnx⟩; exact ⟨x, List.mem_cons_of_mem _ hx, hnx⟩
      · rintro ⟨x, hx, hnx⟩
        rcases List.mem_cons.mp hx with rfl | hx2
        · exact absurd hd hnx
        · exact ⟨x, hx2, hnx⟩
    · simp only [applyDisabled, if_neg hd]
      constructor
      · intro _; exact ⟨d, List.mem_cons_self _ _, hd⟩
      · intro _; exact ⟨_, rfl⟩

/-- A successful `Disabled` loop removes exactly the disabled names. -/
theorem applyDisabled_mem (rn : List String) : ∀ (ds active act : List String),
    applyDisabled rn ds active = .ok act →
      ∀ x, x ∈ act ↔ (x ∈ active ∧ x ∉ ds) := by
  intro ds
  induction ds with
  | nil =>
    intro active act h x
    simp only [applyDisabled] at h
    injection h with h
    subst h
    simp
  | cons d ds ih =>
    intro active act h x
    by_cases hd : d ∈ rn
    · simp only [applyDisabled, if_pos hd] at h
      rw [ih (removeName d active) act h x, removeName_mem]
      constructor
      · rintro ⟨⟨h1, h2⟩, h3⟩
        refine ⟨h1, fun hmem => ?_⟩
        rcases List.mem_cons.mp hmem with rfl | hm2
        · exact h2 rfl
        · exact h3 hm2
      · rintro ⟨h1, h2⟩
        exact ⟨⟨h1, fun hh => h2 (by rw [hh]; exact List.mem_cons_self _ _)⟩,
          fun hm => h2 (List.mem_cons_of_mem _ hm)⟩
    · simp only [applyDisabled, if_neg hd] at h
      cases h

/-- The `Enabled` loop errors exactly on an unknown name or a name also
listed in `Disabled`. -/
theorem applyEnabled_error_iff (rn dis : List String) : ∀ (es active : List String),
    (∃ m, applyEnabled rn dis es active = .error m) ↔
      ∃ e, e ∈ es ∧ (e ∉ rn ∨ e ∈ dis) := by
  intro es
  induction es with
  | nil => intro active; simp [applyEnabled]
  | cons e es ih =>
    intro active
    by_cases h1 : e ∈ rn
    · simp only [applyEnabled, if_neg (not_not_intro h1)]
      by_cases h2 : e ∈ dis
      · simp only [if_pos h2]
        constructor
        · intro _; exact ⟨e, List.mem_cons_self _ _, Or.inr h2⟩
        · intro _; exact ⟨_, rfl⟩
      · simp only [if_neg h2]
        rw [ih (addName e active)]
        constructor
        · rintro ⟨x, hx, hox⟩; exact ⟨x, List.mem_cons_of_mem _ hx, hox⟩
        · rintro ⟨x, hx, hox⟩
          rcases List.mem_cons.mp hx with rfl | hx2
          · rcases hox with hn | hdd
            · exact absurd h1 hn
            · exact absurd hdd h2
          · exact ⟨x, hx2, hox⟩
    · simp only [applyEnabled, if_pos h1]
      constructor
      · intro _; exact ⟨e, List.mem_cons_self _ _, Or.inl h1⟩
      · intro _; exact ⟨_, rfl⟩

/-- A successful `Enabled` loop adds exactly the enabled names. -/
theorem applyEnabled_mem (rn dis : List String) : ∀ (es active act : List String),
    applyEnabled rn dis es active = .ok act →
      ∀ x, x ∈ act ↔ (x ∈ es ∨ x ∈ active) := by
  intro es
  induction es with
  | nil =>
    intro active act h x
    simp only [applyEnabled] at h
    injection h with h
    subst h
    simp
  | cons e es ih =>
    intro active act h x
    by_cases h1 : e ∈ rn
    · simp only [applyEnabled, if_neg (not_not_intro h1)] at h
      by_cases h2 : e ∈ dis
      · simp only [if_pos h2] at h; cases h
      · simp only [if_neg h2] at h
        rw [ih (addName e active) act h x, addName_mem]
        simp only [List.mem_cons]
        constructor
        · rintro (hx | hx | hx)
          · exact Or.inl (Or.inr hx)
          · exact Or.inl (Or.inl hx)
          · exact Or.inr hx
        · rintro ((hx | hx) | hx)
          · exact Or.inr (Or.inl hx)
          · exact Or.inl hx
          · exact Or.inr (Or.inr hx)
    · simp only [applyEnabled, if_pos h1] at h; cases h

/-- C10: assuming every rule validates, configuration validation errors
exactly when `Disabled` or `Enabled` names an unknown rule or a name is in
both lists; on success the active set is all rules (none under
disable-all) minus the `Disabled` names plus the `Enabled` names. -/
theorem c10_config_validate (c : Config) (h : validateRules c.rules = .ok ()) :
    ((∃ m, c.validate = .error m) ↔
      ((∃ d, d ∈ c.disabled ∧ d ∉ c.rules.map Rule.name) ∨
       (∃ e, e ∈ c.enabled ∧ e ∉ c.rules.map Rule.name) ∨
       (∃ nm, nm ∈ c.enabled ∧ nm ∈ c.disabled))) ∧
    (∀ act, c.validate = .ok act → ∀ nm, nm ∈ act ↔
      (nm ∈ c.enabled ∨
        (c.disableAll = false ∧ nm ∈ c.rules.map Rule.name ∧ nm ∉ c.disabled))) := by
  have hv0 : c.validate =
      (match applyDisabled (c.rules.map Rule.name) c.disabled
          (if c.disableAll then [] else c.rules.map Rule.name) with
      | .error m => .error m
      | .ok act1 =>
        match applyEnabled (c.rules.map Rule.name) c.disabled c.enabled act1 with
        | .error m => .error m
        | .ok act2 => .ok act2) := by
    rw [Config.validate_eq c, h]
  cases hd : applyDisabled (c.rules.map Rule.name) c.disabled
      (if c.disableAll then [] else c.rules.map Rule.name) with
  | error m =>
    have hverr : c.validate = .error m := by rw [hv0, hd]
    have herr := (applyDisabled_error_iff (c.rules.map Rule.name) c.disabled _).mp ⟨m, hd⟩
    constructor
    · constructor
      · intro _; exact Or.inl herr
      · intro _; exact ⟨m, hverr⟩
    · intro act hok
      rw [hverr] at hok
      cases hok
  | ok act1 =>
    have hno_d : ¬∃ d, d ∈ c.disabled ∧ d ∉ c.rules.map Rule.name := by
      intro hcon
      obtain ⟨m, hm⟩ := (applyDisabled_error_iff (c.rules.map Rule.name) c.disabled
        (if c.disableAll then [] else c.rules.map Rule.name)).mpr hcon
      rw [hm] at hd
      cases hd
    cases he : applyEnabled (c.rules.map Rule.name) c.disabled c.enabled act1 with
    | error m =>
      have hverr : c.validate = .error m := by rw [hv0, hd]; simp only [he]
      obtain ⟨e, he1, he2⟩ :=
        (applyEnabled_error_iff (c.rules.map Rule.name) c.disabled c.enabled act1).mp ⟨m, he⟩
      constructor
      · constructor
        · intro _
          rcases he2 with hn | hdd
          · exact Or.inr (Or.inl ⟨e, he1, hn⟩)
          · exact Or.inr (Or.inr ⟨e, he1, hdd⟩)
        · intro _; exact ⟨m, hverr⟩
      · intro act hok
        rw [hverr] at hok
        cases hok
    | ok act2 =>
      have hvok : c.validate = .ok act2 := by rw [hv0, hd]; simp only [he]
      have hno_e : ¬∃ e, e ∈ c.enabled ∧ (e ∉ c.rules.map Rule.name ∨ e ∈ c.disabled) := by
        intro hcon
        obtain ⟨m, hm⟩ :=
          (applyEnabled_error_iff (c.rules.map Rule.name) c.disabled c.enabled act1).mpr hcon
        rw [hm] at he
        cases he
      constructor
      · constructor
        · rintro ⟨m, hm⟩
          rw [hvok] at hm
          cases hm
        · rintro (hcon | hcon | ⟨x, hx1, hx2⟩)
          · exact absurd hcon hno_d
          · obtain ⟨e, h1, h2⟩ := hcon
            exact absurd ⟨e, h1, Or.inl h2⟩ hno_e
          · exact absurd ⟨x, hx1, Or.inr hx2⟩ hno_e
      · intro act hok nm
        rw [hvok] at hok
        injection hok with hok
        subst hok
        rw [applyEnabled_mem (c.rules.map Rule.name) c.disabled c.enabled act1 act2 he nm,
          applyDisabled_mem (c.rules.map Rule.name) c.disabled _ act1 hd nm]
        cases hda : c.disableAll with
        | true =>
          simp only [hda, if_pos rfl]
          constructor
          · rintro (hx | ⟨hx, _⟩)
            · exact Or.inl hx
            · cases hx
          · rintro (hx | ⟨hfalse, _⟩)
            · exact Or.inl hx
            · cases hfalse
        | false =>
          simp only [hda]
          constructor
          · rintro (hx | ⟨hx1, hx2⟩)
            · exact Or.inl hx
            · exact Or.inr ⟨by simp, by simpa using hx1, hx2⟩
          · rintro (hx | ⟨_, hx1, hx2⟩)
            · exact Or.inl hx
            · exact Or.inr ⟨by simpa using hx1, hx2⟩

/-- Witness for C10: the concrete configuration disabling its only rule
validates, and its active set is empty. -/
theorem c10_witness :
    validateRules cfgW.rules = .ok () ∧
    (((∃ m, cfgW.validate = .error m) ↔
        ((∃ d, d ∈ cfgW.disabled ∧ d ∉ cfgW.rules.map Rule.name) ∨
         (∃ e, e ∈ cfgW.enabled ∧ e ∉ cfgW.rules.map Rule.name) ∨
         (∃ nm, nm ∈ cfgW.enabled ∧ nm ∈ cfgW.disabled))) ∧
      (∀ act, cfgW.validate = .ok act → ∀ nm, nm ∈ act ↔
        (nm ∈ cfgW.enabled ∨
          (cfgW.disableAll = false ∧ nm ∈ cfgW.rules.map Rule.name ∧ nm ∉ cfgW.disabled)))) :=
  ⟨rfl, c10_config_validate cfgW rfl⟩


/-- Bool-disjunction introduction, left. -/
theorem orI1 {a b : Bool} (h : a = true) : (a || b) = true := by
  rw [h]; rfl

/-- Bool-disjunction introduction, right. -/
theorem orI2 {a b : Bool} (h : b = true) : (a || b) = true := by
  rw [h]; simp

/-- `visitCallNode`'s state-independent checks succeed on a receiver-style
call `recv.M(...)` with no arguments when the method name matches, the
receiver's type is known and the fully qualified call is expected. -/
theorem callHit_selector_ident (r : CRule) (tr : TypeOracle) (cn M T : String) (c : ObjId)
    (hmc : r.matchesCall 0 M = true)
    (hM : (M == "") = false)
    (hT : tr.typeOfObj c = some T)
    (hE : r.expectedCalls.contains (T ++ "." ++ M) = true) :
    callHit r tr 0 (.selector (.ident cn c) M) = some c := by
  have hnames : names (.selector (.ident cn c) M) = some [cn, M] := rfl
  have hroot : rootIdent (.selector (.ident cn c) M) = some (cn, c) := rfl
  have hjoin : joinWith "." (List.drop 1 [cn, M]) = M := rfl
  simp only [callHit, hnames, hjoin, hmc, Bool.not_true, Bool.false_eq_true, if_false,
    hroot, hT, hM, hE, if_true]

/-- A top-of-statement expected call on `c` is found by `containsCallS`
with any sufficient fuel. -/
theorem containsCallS_exprStmt_call (r : CRule) (tr : TypeOracle) (c : ObjId)
    (fn : Expr) (args : List Expr) (fuel : Nat)
    (h : callHit r tr args.length fn = some c) :
    containsCallS r tr c (fuel + 1 + 1) (.exprStmt (.call fn args)) = true := by
  simp only [containsCallS, containsCallE, h]
  simp

/-- C2: aliasing is transitive and order-preserving: for a tracked
identifier `a`, the suffix `b := a; c := b; c.M()` satisfies the
obligation tracked from `a` whenever `M` matches the rule's expected call
and the fully qualified call on `c`'s type is expected. -/
theorem c2_alias_chain_transitive (r : CRule) (tr : TypeOracle)
    (a b c : ObjId) (an bn cn M T : String)
    (hmc : r.matchesCall 0 M = true)
    (hM : (M == "") = false)
    (hT : tr.typeOfObj c = some T)
    (hE : r.expectedCalls.contains (T ++ "." ++ M) = true) :
    visit r tr a
      [.assign [.ident bn b] [.ident an a],
       .assign [.ident cn c] [.ident bn b],
       .exprStmt (.call (.selector (.ident cn c) M) [])] = true := by
  apply suffixSat_visit
  have hch : callHit r tr 0 (.selector (.ident cn c) M) = some c :=
    callHit_selector_ident r tr cn M T c hmc hM hT hE
  have ha : a ∈ ([a] : List ObjId) := List.mem_singleton_self a
  rw [suffixSat]
  apply orI2
  have e1 : aliasStep (.assign [.ident bn b] [.ident an a]) [a] = addObj b [a] := by
    simp only [aliasStep, assignMatches]
    rw [if_pos ha]
  rw [e1]
  rw [suffixSat]
  apply orI2
  have hb1 : b ∈ addObj b [a] := mem_addObj_self b [a]
  have e2 : aliasStep (.assign [.ident cn c] [.ident bn b]) (addObj b [a]) =
      addObj c (addObj b [a]) := by
    simp only [aliasStep, assignMatches]
    rw [if_pos hb1]
  rw [e2]
  rw [suffixSat]
  apply orI1
  refine List.any_eq_true.mpr ⟨c, mem_addObj_self c _, ?_⟩
  unfold stmtHasCall
  have hsz : sizeS (Stmt.exprStmt (.call (.selector (.ident cn c) M) [])) = 3 + 1 + 1 := rfl
  rw [hsz]
  have hlen : callHit r tr (List.length ([] : List Expr)) (.selector (.ident cn c) M) =
      some c := hch
  exact containsCallS_exprStmt_call r tr c (.selector (.ident cn c) M) [] 3 hlen

/-- Witness for C2: tracking `rows` (object 1) across `b := rows; c := b;
c.Err()` under the `sql-rows-err` rule. -/
theorem c2_witness :
    crSQL.matchesCall 0 "Err" = true ∧ (("Err" : String) == "") = false ∧
    trSQL.typeOfObj 3 = some "*database/sql.Rows" ∧
    crSQL.expectedCalls.contains ("*database/sql.Rows" ++ "." ++ "Err") = true ∧
    visit crSQL trSQL 1
      [.assign [.ident "b" 2] [.ident "rows" 1],
       .assign [.ident "c" 3] [.ident "b" 2],
       .exprStmt (.call (.selector (.ident "c" 3) "Err") [])] = true :=
  ⟨by decide, by decide, by decide, by decide,
    c2_alias_chain_transitive crSQL trSQL 1 2 3 "rows" "b" "c" "Err" "*database/sql.Rows"
      (by decide) (by decide) (by decide) (by decide)⟩


/-- Within a list of compiled rules with distinct names, the name
determines the rule. -/
theorem crule_name_inj : ∀ {l : List CRule}, (l.map CRule.name).Nodup →
    ∀ {x y : CRule}, x ∈ l → y ∈ l → x.name = y.name → x = y := by
  intro l
  induction l with
  | nil => intro _ x y hx; cases hx
  | cons a l ih =>
    intro hnd x y hx hy hxy
    rw [List.map_cons, List.nodup_cons] at hnd
    obtain ⟨hna, hnd2⟩ := hnd
    rcases List.mem_cons.mp hx with rfl | hx2
    · rcases List.mem_cons.mp hy with rfl | hy2
      · rfl
      · have hmem : x.name ∈ l.map CRule.name := by
          rw [hxy]; exact List.mem_map_of_mem _ hy2
        exact absurd hmem hna
    · rcases List.mem_cons.mp hy with rfl | hy2
      · have hmem : y.name ∈ l.map CRule.name := by
          rw [← hxy]; exact List.mem_map_of_mem _ hx2
        exact absurd hmem hna
      · exact ih hnd2 hx2 hy2 hxy

/-- C1: for a matched call site whose expected result is bound to an
identifier with a non-empty following suffix, `checkRule` succeeds; a
diagnostic for an active rule is emitted exactly when that rule's tracker
returns false on the suffix, and when the expected call appears in the
suffix on the bound identifier or an identifier reachable by
re-assignment chains, no diagnostic of the matched rule is emitted. -/
theorem c1_tracker_decides_diagnostics (active : List CRule) (rule : CRule) (tr : TypeOracle)
    (sigResults : List (Option String)) (stack : List Node)
    (lhs rhs : List Expr) (rest : List Stmt) (node : Expr) (nm : String) (obj : ObjId)
    (hnd : (active.map CRule.name).Nodup)
    (hmatch : rule.matchesResults sigResults = true)
    (hstack : restOfBlock stack = .assign lhs rhs :: rest)
    (hlhs : lhs.get? rule.expectsIdx = some node)
    (hroot : rootIdent node = some (nm, obj))
    (hrest : rest ≠ []) :
    ∃ reps, checkRule active rule tr sigResults stack = .ok reps ∧
      (∀ ru, ru ∈ active → (reportD ru nm ∈ reps ↔ visit ru tr obj rest = false)) ∧
      (rule ∈ active → suffixSat rule tr [obj] rest = true →
        ∀ rep, rep ∈ reps → rep.ruleName ≠ rule.name) := by
  have hempty : rest.isEmpty = false := by
    cases rest with
    | nil => exact absurd rfl hrest
    | cons a b => rfl
  have hck : checkRule active rule tr sigResults stack =
      .ok (reportRules active tr obj nm rest) := by
    unfold checkRule
    rw [hmatch, hstack]
    simp only [Bool.not_true, Bool.false_eq_true, if_false, hlhs, hroot, hempty]
  refine ⟨reportRules active tr obj nm rest, hck, ?_, ?_⟩
  · intro ru hru
    constructor
    · intro hmem
      obtain ⟨ru2, hru2, hv2, heq⟩ :=
        (reportRules_mem tr obj nm rest active (reportD ru nm)).mp hmem
      have hname : ru.name = ru2.name := congrArg Report.ruleName heq
      have hrr : ru = ru2 := crule_name_inj hnd hru hru2 hname
      rw [hrr]
      exact hv2
    · intro hv
      exact (reportRules_mem tr obj nm rest active (reportD ru nm)).mpr ⟨ru, hru, hv, rfl⟩
  · intro hrule hsat rep hmem hnm
    obtain ⟨ru2, hru2, hv2, heq⟩ := (reportRules_mem tr obj nm rest active rep).mp hmem
    have hname : ru2.name = rule.name := by
      rw [heq] at hnm
      exact hnm
    have hrr : ru2 = rule := crule_name_inj hnd hru2 hrule hname
    rw [hrr] at hv2
    have hvt := suffixSat_visit rule tr obj rest hsat
    rw [hvt] at hv2
    exact absurd hv2 (by decide)

/-- Witness for C1: `rows, _ := db.Query(...)` followed by `rows.Err()`
under the single active `sql-rows-err` rule. -/
theorem c1_witness :
    (([crSQL].map CRule.name).Nodup ∧
      crSQL.matchesResults sigSQL = true ∧
      restOfBlock stackW = .assign [.ident "rows" 1, .ident "_" 8] [queryCall] :: [errStmt] ∧
      [Expr.ident "rows" 1, Expr.ident "_" 8].get? crSQL.expectsIdx =
        some (.ident "rows" 1) ∧
      rootIdent (.ident "rows" 1) = some ("rows", 1) ∧
      ([errStmt] : List Stmt) ≠ []) ∧
    (∃ reps, checkRule [crSQL] crSQL trSQL sigSQL stackW = .ok reps ∧
      (∀ ru, ru ∈ [crSQL] → (reportD ru "rows" ∈ reps ↔ visit ru trSQL 1 [errStmt] = false)) ∧
      (crSQL ∈ [crSQL] → suffixSat crSQL trSQL [1] [errStmt] = true →
        ∀ rep, rep ∈ reps → rep.ruleName ≠ crSQL.name)) :=
  ⟨⟨by simp, by decide, rfl, rfl, rfl, by simp⟩,
    c1_tracker_decides_diagnostics [crSQL] crSQL trSQL sigSQL stackW
      [.ident "rows" 1, .ident "_" 8] [queryCall] [errStmt] (.ident "rows" 1) "rows" 1
      (by simp) (by decide) rfl rfl rfl (by simp)⟩


/-- `walkStmts` on an empty list is the identity, whatever the fuel. -/
theorem walkStmts_nil (r : CRule) (tr : TypeOracle) (fuel : Nat) (st : VState) :
    walkStmts r tr fuel [] st = st := by
  cases fuel <;> rfl

/-- `assignFuncLits` on empty position lists is the identity. -/
theorem assignFuncLits_nil (r : CRule) (tr : TypeOracle) (fuel : Nat) (st : VState) :
    assignFuncLits r tr fuel [] [] st = st := by
  cases fuel <;> rfl

/-- `procParams` on an empty field list is the identity. -/
theorem procParams_nil (r : CRule) (tr : TypeOracle) (fuel : Nat) (hObj : ObjId)
    (body : List Stmt) (st : VState) : procParams r tr fuel hObj [] body st = st := by
  cases fuel <;> rfl

/-- `procNames` on an empty name list is the identity. -/
theorem procNames_nil (r : CRule) (tr : TypeOracle) (fuel : Nat) (hObj : ObjId) (j : Nat)
    (body : List Stmt) (st : VState) : procNames r tr fuel hObj [] j body st = st := by
  cases fuel <;> rfl

/-- An invocation `h(a)` of a bound function literal is satisfied by the
deferred-call table: when `a` is in the alias set and position 0 is
recorded for `h`'s object, the walk of the call statement sets `found`. -/
theorem walkStmt_deferred_call_found (r : CRule) (tr : TypeOracle)
    (a hObj : ObjId) (an hn : String) (f : Nat) (st : VState)
    (hA : a ∈ st.identObjs)
    (hB : (0 : Nat) ∈ lookupArgs st.calledArgs hObj) :
    (walkStmt r tr (f + 1 + 1) (.exprStmt (.call (.ident hn hObj) [.ident an a])) st).found =
      true := by
  by_cases hf : st.found = true
  · simp only [walkStmt, hf, if_true]
  · simp only [Bool.not_eq_true] at hf
    simp only [walkStmt, hf, Bool.false_eq_true, if_false]
    simp only [walkExpr, hf, Bool.false_eq_true, if_false]
    by_cases hp2 : (visitCallNode r tr (List.length [Expr.ident an a])
        (Expr.ident hn hObj) st).2 = true
    · rw [if_pos hp2]
      exact visitCallNode_true_found r tr _ _ st hp2
    · rw [if_neg hp2]
      have hp2f : (visitCallNode r tr (List.length [Expr.ident an a])
          (Expr.ident hn hObj) st).2 = false := by
        simpa using hp2
      have hfst := visitCallNode_false_fst r tr (List.length [Expr.ident an a])
        (Expr.ident hn hObj) st hp2f
      rw [hfst]
      have hah : argsHit st hObj [Expr.ident an a] 0 = true :=
        argsHit_of_get st hObj [Expr.ident an a] 0 0 an a rfl hA (by simpa using hB)
      rw [if_pos hah]

/-- C3: a function literal assigned to `h` whose body calls the expected
method on its parameter of an expected type (established by a recursive
tracker run over the literal body with that parameter tracked, recorded in
the deferred-call table at the parameter's position), followed by an
invocation `h(a)` of the tracked identifier `a` at that position,
satisfies the obligation. -/
theorem c3_funclit_handler (r : CRule) (tr : TypeOracle)
    (a hObj pObj : ObjId) (an hn pn pt : String) (body : List Stmt)
    (htype : containsType (some pt) r.expectedTypes = true)
    (hbody : body ≠ [])
    (hvisit : visit r tr pObj body = true) :
    visit r tr a
      [.assign [.ident hn hObj] [.funcLit [⟨[(pn, pObj)], some pt⟩] body],
       .exprStmt (.call (.ident hn hObj) [.ident an a])] = true := by
  have hbodyE : body.isEmpty = false := by
    cases body with
    | nil => exact absurd rfl hbody
    | cons x xs => rfl
  obtain ⟨w, hfeq, hwb⟩ :
      ∃ w, sizeSs [.assign [.ident hn hObj] [.funcLit [⟨[(pn, pObj)], some pt⟩] body],
          .exprStmt (.call (.ident hn hObj) [.ident an a])] = w + 1 + 1 + 1 + 1 + 1 ∧
        sizeSs body ≤ w := by
    refine ⟨14 + sizeSs body, ?_, by omega⟩
    simp only [sizeSs, sizeS, sizeEs, sizeE, sizeFs, List.length_cons, List.length_nil]
    omega
  unfold visit
  rw [hfeq]
  have hi : initState a = ⟨[a], [], false⟩ := rfl
  rw [hi]
  simp only [walkStmts]
  have eS1 : walkStmt r tr (w + 1 + 1 + 1 + 1)
      (.assign [.ident hn hObj] [.funcLit [⟨[(pn, pObj)], some pt⟩] body])
      (⟨[a], [], false⟩ : VState) =
      walkExprs r tr (w + 1 + 1 + 1) [.funcLit [⟨[(pn, pObj)], some pt⟩] body]
        (walkExprs r tr (w + 1 + 1 + 1) [.ident hn hObj]
          (assignFuncLits r tr (w + 1 + 1 + 1) [.ident hn hObj]
            [.funcLit [⟨[(pn, pObj)], some pt⟩] body] ⟨[a], [], false⟩)) := rfl
  have eS2 : assignFuncLits r tr (w + 1 + 1 + 1) [.ident hn hObj]
      [.funcLit [⟨[(pn, pObj)], some pt⟩] body] (⟨[a], [], false⟩ : VState) =
      procParams r tr (w + 1 + 1) hObj [⟨[(pn, pObj)], some pt⟩] body ⟨[a], [], false⟩ := by
    simp only [assignFuncLits, hbodyE, Bool.false_eq_true, if_false]
  have eS3 : procParams r tr (w + 1 + 1) hObj [⟨[(pn, pObj)], some pt⟩] body
      (⟨[a], [], false⟩ : VState) =
      procNames r tr (w + 1) hObj [(pn, pObj)] 0 body ⟨[a], [], false⟩ := by
    simp only [procParams, htype, if_true]
  have eS4 : procNames r tr (w + 1) hObj [(pn, pObj)] 0 body
      (⟨[a], [], false⟩ : VState) =
      ⟨[a], addCalledArg hObj 0 [], false⟩ := by
    have hcond : (walkStmts r tr w body (initState pObj)).found = true := by
      rw [(walk_fuel_irrel r tr w).2.2.2.1 (sizeSs body) body (initState pObj) hwb
        (le_refl _)]
      exact hvisit
    simp only [procNames, hcond, if_true]
    exact procNames_nil r tr w hObj 1 body _
  rw [eS1, eS2, eS3, eS4]
  have m := walk_mono r tr (w + 1 + 1 + 1)
  have t1 : StLe (⟨[a], addCalledArg hObj 0 [], false⟩ : VState)
      (walkExprs r tr (w + 1 + 1 + 1) [.ident hn hObj]
        ⟨[a], addCalledArg hObj 0 [], false⟩) :=
    m.2.2.2.2.1 [.ident hn hObj] _
  have t2 : StLe (⟨[a], addCalledArg hObj 0 [], false⟩ : VState)
      (walkExprs r tr (w + 1 + 1 + 1) [.funcLit [⟨[(pn, pObj)], some pt⟩] body]
        (walkExprs r tr (w + 1 + 1 + 1) [.ident hn hObj]
          ⟨[a], addCalledArg hObj 0 [], false⟩)) :=
    StLe.trans t1 (m.2.2.2.2.1 [.funcLit [⟨[(pn, pObj)], some pt⟩] body] _)
  exact walkStmt_deferred_call_found r tr a hObj an hn (w + 1) _
    (t2.1 a (List.mem_singleton_self a))
    (t2.2.1 hObj 0 (lookupArgs_addCalledArg_self hObj 0 []))

/-- Witness for C3: a handler closing over its `*sql.Rows` parameter,
assigned to `h` and later invoked as `h(rows)`. -/
theorem c3_witness :
    containsType (some "*database/sql.Rows") crSQL.expectedTypes = true ∧
    ([Stmt.exprStmt (.call (.selector (.ident "p" 7) "Err") [])] : List Stmt) ≠ [] ∧
    visit crSQL trSQL 7 [.exprStmt (.call (.selector (.ident "p" 7) "Err") [])] = true ∧
    visit crSQL trSQL 1
      [.assign [.ident "h" 5] [.funcLit [⟨[("p", 7)], some "*database/sql.Rows"⟩]
         [.exprStmt (.call (.selector (.ident "p" 7) "Err") [])]],
       .exprStmt (.call (.ident "h" 5) [.ident "rows" 1])] = true :=
  ⟨by decide, by simp, by decide,
    c3_funclit_handler crSQL trSQL 1 5 7 "rows" "h" "p" "*database/sql.Rows"
      [.exprStmt (.call (.selector (.ident "p" 7) "Err") [])]
      (by decide) (by simp) (by decide)⟩

end Uncalled
